import Mathlib

/-!
Verification development for the got_it argument-validation library.

The library wraps a callable, analyzes its declared parameter signature once
at wrap time (building an ordered field-definition mapping, the tuple of
argument names, the names of the variadic slots and the index where
positional arguments end), and on every call rebinds the actual arguments
into a flat keyword mapping, validates it with an external engine
(a pydantic model with extra fields forbidden), and restores the validated
mapping back into the original call shape.

This file gives a shallow embedding of that pipeline:

* `Value`                 : runtime values of wrapped calls;
* `specStep` / `specLoop` / `got_it_get_args_spec` / `args_get_args_spec`
                          : the signature analysis of
                            `got_it.get_args_spec` (decorators.py) and of the
                            module level `get_args_spec` (args.py, identical
                            loop body plus an emptiness check);
* `validate_model`        : the external validation engine, modelled from the
                            interface the core relies on (field name to
                            coerced value, unknown fields always rejected);
* `parse_args_with` / `parse_args` / `wrapper_with` / `wrapper`
                          : `parse_args` of parsing.py (which inlines
                            `restore_args` of args.py) and the call wrapper
                            built by `got_it.wrap`;
* `parse_result` / `prepare_returns_model`
                          : the return value checking path;
* `visitAttrs` / `visitClasses` / `all_methods_wrap`
                          : the class member traversal of `all_methods`.

Naming follows the source where Lean allows it; the Python source attribute
named `annotation` is rendered `ann`, its `default` is rendered `dflt`
(the value `none` encodes the `inspect.Parameter.empty` sentinel).
-/

namespace GotIt

/-- Runtime values flowing through wrapped calls: the Python values the
pipeline manipulates (None, ints, strings, bools, tuples, string-keyed
dicts). Dicts are insertion-ordered association lists, as in CPython. -/
inductive Value where
  | vNone : Value
  | vInt : Int → Value
  | vStr : String → Value
  | vBool : Bool → Value
  | vTuple : List Value → Value
  | vDict : List (String × Value) → Value

/-- Lookup in an insertion-ordered string-keyed mapping (`d[k]` / `d.get(k)`). -/
def aget {α : Type} (d : List (String × α)) (k : String) : Option α :=
  (d.find? (fun kv => kv.1 == k)).map (·.2)

/-- Key membership in a mapping (`k in d`). -/
def amem {α : Type} (d : List (String × α)) (k : String) : Bool :=
  d.any (fun kv => kv.1 == k)

/-- Assignment `d[k] = v` on an insertion-ordered mapping: replace in place
when the key exists, append otherwise, exactly as a CPython dict. -/
def ainsert {α : Type} : List (String × α) → String → α → List (String × α)
  | [], k, v => [(k, v)]
  | kv :: rest, k, v =>
      if kv.1 == k then (k, v) :: rest else kv :: ainsert rest k v

/-- Removal `d.pop(k, sentinel)`: the removed value (if the key was present)
together with the remaining mapping. -/
def apop {α : Type} : List (String × α) → String → Option α × List (String × α)
  | [], _ => (none, [])
  | kv :: rest, k =>
      if kv.1 == k then (some kv.2, rest)
      else
        let r := apop rest k
        (r.1, kv :: r.2)

/-- Declared types that can appear as field annotations, covering the shapes
the analysis produces: plain scalar types, the pydantic strict variants,
`Tuple[Any, ...]` / `Tuple[t, ...]` and `Dict[str, Any]` / `Dict[str, t]`. -/
inductive FType where
  | fAny
  | fInt
  | fFloat
  | fBool
  | fStr
  | strictInt
  | strictFloat
  | strictBool
  | strictStr
  | fTupleAny
  | fTupleOf (t : FType)
  | fDictStrAny
  | fDictStrOf (t : FType)
  deriving DecidableEq, Repr

/-- Whether `getattr(t, "__origin__", None) is tuple` holds of the type. -/
def originIsTuple : FType → Bool
  | .fTupleAny => true
  | .fTupleOf _ => true
  | _ => false

/-- STRICT_TYPES_MAPPING of typing.py: int, float, bool and str map to their
pydantic strict variants; every other type is absent from the mapping. -/
def strictMap : FType → Option FType
  | .fInt => some .strictInt
  | .fFloat => some .strictFloat
  | .fBool => some .strictBool
  | .fStr => some .strictStr
  | _ => none

/-- The four parameter kinds of `inspect.Parameter` the analysis inspects. -/
inductive PKind where
  | posOrKw
  | kwOnly
  | varPos
  | varKw
  deriving DecidableEq, Repr

/-- One declared parameter as the reflection interface reports it: name,
annotation (`none` = the empty sentinel), default (`none` = the empty
sentinel; `some .vNone` = an explicit None default), and kind. -/
structure Param where
  name : String
  ann : Option FType
  dflt : Option Value
  kind : PKind

/-- A default slot of a field definition: `required` renders the pydantic
Ellipsis marker, `val v` a concrete default value. -/
inductive DefaultVal where
  | required
  | val (v : Value)

/-- The `if default is empty_: default = ...` substitution at the end of the
analysis loop body. -/
def toDefault : Option Value → DefaultVal
  | none => .required
  | some v => .val v

/-- One entry of `field_definitions`: either a bare default (annotation still
empty) or an (annotation, default) pair. -/
inductive FieldDef where
  | bare (d : DefaultVal)
  | typed (t : FType) (d : DefaultVal)

/-- IGNORE_IF_FIRST of args.py / decorators.py. -/
def IGNORE_IF_FIRST : List String := ["mcs", "cls", "self"]

/-- The mutable locals of the `get_args_spec` loop. -/
structure SpecState where
  field_definitions : List (String × FieldDef)
  args_name : Option String
  kwargs_name : Option String
  positional_args_end : Option Nat

/-- Loop state before the first iteration of `get_args_spec`. -/
def initState : SpecState := ⟨[], none, none, none⟩

/-- The guarded assignment `if positional_args_end is None:
positional_args_end = i`: the first occurrence wins. -/
def fixBoundary (pae : Option Nat) (i : Nat) : Option Nat :=
  match pae with
  | none => some i
  | some b => some b

/-- The test `default in (empty_, None)` of the untyped-parameter policy. -/
def isNoDefault : Option Value → Bool
  | none => true
  | some .vNone => true
  | some _ => false

/-- One iteration of the `get_args_spec` for-loop (shared verbatim between
args.py and decorators.py): dispatch on the parameter kind, then the
untyped-parameter policy, then the strict-type substitution, then record the
field definition. -/
def specStep (ignore_untyped strict : Bool) (i : Nat) (s : SpecState) (p : Param) :
    Except String SpecState :=
  let kindRes : SpecState × Option FType × Option Value :=
    match p.kind with
    | .posOrKw => (s, p.ann, p.dflt)
    | .kwOnly =>
        ({ s with positional_args_end := fixBoundary s.positional_args_end i },
          p.ann, p.dflt)
    | .varPos =>
        let a :=
          match p.ann with
          | none => FType.fTupleAny
          | some a0 => if originIsTuple a0 then a0 else FType.fTupleOf a0
        let s1 := { s with positional_args_end := fixBoundary s.positional_args_end i,
                           args_name := some p.name }
        (s1, some a, some (Value.vTuple []))
    | .varKw =>
        let a :=
          match p.ann with
          | none => FType.fDictStrAny
          | some a0 => FType.fDictStrOf a0
        let s1 := { s with positional_args_end := fixBoundary s.positional_args_end i,
                           kwargs_name := some p.name }
        (s1, some a, some (Value.vDict []))
  let s1 := kindRes.1
  let ann0 := kindRes.2.1
  let dflt0 := kindRes.2.2
  match ann0 with
  | none =>
      let no_default : Bool := isNoDefault dflt0
      let arg_ignored : Bool := i == 0 && IGNORE_IF_FIRST.contains p.name
      if no_default && (ignore_untyped || arg_ignored) then
        let fd := ainsert s1.field_definitions p.name (.typed .fAny (toDefault dflt0))
        .ok { s1 with field_definitions := fd }
      else if no_default then
        .error ("No annotation or default value specified for argument " ++ p.name)
      else
        let fd := ainsert s1.field_definitions p.name (.bare (toDefault dflt0))
        .ok { s1 with field_definitions := fd }
  | some a0 =>
      let a1 := if strict then (strictMap a0).getD a0 else a0
      let fd := ainsert s1.field_definitions p.name (.typed a1 (toDefault dflt0))
      .ok { s1 with field_definitions := fd }

/-- The `get_args_spec` loop over the enumerated parameters. -/
def specLoop (ignore_untyped strict : Bool) : Nat → SpecState → List Param →
    Except String SpecState
  | _, s, [] => .ok s
  | i, s, p :: rest =>
      match specStep ignore_untyped strict i s p with
      | .error e => .error e
      | .ok s1 => specLoop ignore_untyped strict (i + 1) s1 rest

/-- The analysis result: field definitions in declaration order, the tuple of
all field names, the variadic slot names and the positional boundary. -/
structure ArgsSpec where
  field_definitions : List (String × FieldDef)
  args_names : List String
  var_args_name : Option String
  var_kwargs_name : Option String
  positional_args_end : Option Nat

/-- `got_it.get_args_spec` of decorators.py: run the loop and package the
state; this method performs no emptiness check on the field definitions. -/
def got_it_get_args_spec (params : List Param) (ignore_untyped strict : Bool) :
    Except String ArgsSpec :=
  match specLoop ignore_untyped strict 0 initState params with
  | .error e => .error e
  | .ok s =>
      .ok ⟨s.field_definitions, s.field_definitions.map (·.1),
           s.args_name, s.kwargs_name, s.positional_args_end⟩

/-- `get_args_spec` of args.py: the same loop, plus the final
`if not field_definitions: raise` guard. -/
def args_get_args_spec (params : List Param) (ignore_untyped strict : Bool) :
    Except String ArgsSpec :=
  match got_it_get_args_spec params ignore_untyped strict with
  | .error e => .error e
  | .ok spec =>
      if spec.field_definitions.isEmpty then
        .error "Functions without arguments or with kwargs only are not supported"
      else
        .ok spec

/-- Modelled from the spec: the positional boundary as section 4.1 describes
it, the declaration index of the first parameter that is keyword-only,
variadic-positional or variadic-keyword, and null when no such parameter
exists. Stated from the spec words to be compared with the loop above. -/
def specBoundary : List Param → Option Nat
  | [] => none
  | p :: rest =>
      if p.kind == PKind.posOrKw then (specBoundary rest).map (· + 1)
      else some 0

/-- Whether an Except value is an error. -/
def isErr {ε α : Type} : Except ε α → Bool
  | .error _ => true
  | .ok _ => false

/-- Coerce every element of a list with the given element coercion,
failing when any element fails. -/
def coerceElems (f : Value → Option Value) : List Value → Option (List Value)
  | [] => some []
  | v :: rest =>
      match f v, coerceElems f rest with
      | some v1, some rest1 => some (v1 :: rest1)
      | _, _ => none

/-- Value-level coercion of the external engine for one declared type:
the engine returns the coerced value or fails. `fAny` accepts anything,
lenient scalars coerce across representations as pydantic does, strict
variants accept only the exact representation, and the container types
coerce elementwise. The engine is an external collaborator; only the
interface shape matters to the claims. -/
def coerce : FType → Value → Option Value
  | .fAny, v => some v
  | .fInt, .vInt n => some (.vInt n)
  | .fInt, .vStr s => (s.toInt?).map .vInt
  | .fInt, .vBool b => some (.vInt (if b then 1 else 0))
  | .fInt, _ => none
  | .fFloat, .vInt n => some (.vInt n)
  | .fFloat, _ => none
  | .fBool, .vBool b => some (.vBool b)
  | .fBool, .vInt n => some (.vBool (n != 0))
  | .fBool, _ => none
  | .fStr, .vStr s => some (.vStr s)
  | .fStr, .vInt n => some (.vStr (toString n))
  | .fStr, _ => none
  | .strictInt, .vInt n => some (.vInt n)
  | .strictInt, _ => none
  | .strictFloat, .vInt n => some (.vInt n)
  | .strictFloat, _ => none
  | .strictBool, .vBool b => some (.vBool b)
  | .strictBool, _ => none
  | .strictStr, .vStr s => some (.vStr s)
  | .strictStr, _ => none
  | .fTupleAny, .vTuple l => some (.vTuple l)
  | .fTupleAny, _ => none
  | .fTupleOf t, .vTuple l => (coerceElems (coerce t) l).map .vTuple
  | .fTupleOf _, _ => none
  | .fDictStrAny, .vDict d => some (.vDict d)
  | .fDictStrAny, _ => none
  | .fDictStrOf t, .vDict d =>
      (coerceElems (coerce t) (d.map (·.2))).map
        (fun vs => .vDict ((d.map (·.1)).zip vs))
  | .fDictStrOf _, _ => none

/-- The default the engine fills in for a field absent from the input:
none when the field is required. -/
def fieldDefault : FieldDef → Option Value
  | .bare .required => none
  | .bare (.val v) => some v
  | .typed _ .required => none
  | .typed _ (.val v) => some v

/-- Coercion applied by the engine for one field definition; a bare default
field (type inferred from the default) accepts the given value. -/
def fieldCoerce : FieldDef → Value → Option Value
  | .bare _, v => some v
  | .typed t _, v => coerce t v

/-- A structured validation error of the external engine: an extra field not
permitted by the schema, a value failing coercion, or a missing required
field. Each names the offending field. -/
inductive VErr where
  | extraField (name : String)
  | invalidType (name : String)
  | missingField (name : String)
  deriving DecidableEq, Repr

/-- The per-field pass of the engine over the schema fields in order:
input value coerced when present, default filled in when absent, error when
a required field is absent or coercion fails. -/
def processFields (data : List (String × Value)) :
    List (String × FieldDef) → Except VErr (List (String × Value))
  | [] => .ok []
  | (n, fd) :: rest =>
      let head : Except VErr (String × Value) :=
        match aget data n with
        | some v =>
            match fieldCoerce fd v with
            | some v1 => .ok (n, v1)
            | none => .error (.invalidType n)
        | none =>
            match fieldDefault fd with
            | some v => .ok (n, v)
            | none => .error (.missingField n)
      match head with
      | .error e => .error e
      | .ok hv =>
          match processFields data rest with
          | .error e => .error e
          | .ok tl => .ok (hv :: tl)

/-- The external validation engine (`pydantic.validate_model` on a model with
`extra = Extra.forbid`): reject the first input entry whose key is not a
schema field, then produce the full mapping of field name to coerced value,
in schema field order. -/
def validate_model (fields : List (String × FieldDef)) (data : List (String × Value)) :
    Except VErr (List (String × Value)) :=
  match data.find? (fun kv => !(fields.any (fun f => f.1 == kv.1))) with
  | some kv => .error (.extraField kv.1)
  | none => processFields data fields

/-- A call-time failure of `parse_args`: the duplicate-binding TypeError
(`got multiple values for argument`), a propagated engine error, or the
KeyError a failed `.pop` would raise during restoration. -/
inductive PError where
  | multipleValues (name : String)
  | validation (e : VErr)
  | keyErr (name : String)

/-- The `known_args` slice of `restore_args`: everything when the boundary is
null, else the first `positional_args_end` positional values. -/
def knownArgsOf (spec : ArgsSpec) (all_args : List Value) : List Value :=
  match spec.positional_args_end with
  | none => all_args
  | some k => all_args.take k

/-- The `additional_args` slice of `restore_args`: empty when the boundary is
null, else the positional values past `positional_args_end`. -/
def additionalArgsOf (spec : ArgsSpec) (all_args : List Value) : List Value :=
  match spec.positional_args_end with
  | none => []
  | some k => all_args.drop k

/-- The positional zip of `parse_args`: walk (argument, name) pairs in order;
if a name is also present in the original keyword mapping raise the
duplicate-binding TypeError, otherwise assign the argument under that name. -/
def zipInsertArgs (all_kwargs : List (String × Value)) :
    List (Value × String) → List (String × Value) → Except PError (List (String × Value))
  | [], kk => .ok kk
  | (arg, name) :: rest, kk =>
      if amem all_kwargs name then .error (.multipleValues name)
      else zipInsertArgs all_kwargs rest (ainsert kk name arg)

/-- Restoration of the regular positional arguments: pop each listed name in
order from the validated mapping (`parsed_kwargs.pop(arg)`); a missing name
would raise KeyError. -/
def popMany : List String → List (String × Value) →
    Except PError (List Value × List (String × Value))
  | [], d => .ok ([], d)
  | n :: rest, d =>
      match apop d n with
      | (none, _) => .error (.keyErr n)
      | (some v, d1) =>
          match popMany rest d1 with
          | .error e => .error e
          | .ok (vs, d2) => .ok (v :: vs, d2)

/-- Restoration of a variadic slot: `parsed_kwargs.pop(name, default)` with
a possibly undeclared (None) name; popping None finds no string key. -/
def popDefault (d : List (String × Value)) (k : Option String) (dv : Value) :
    Value × List (String × Value) :=
  match k with
  | none => (dv, d)
  | some n =>
      match apop d n with
      | (none, d1) => (dv, d1)
      | (some v, d1) => (v, d1)

/-- The restored call shape `parse_args` returns: regular positional values,
the variadic-positional tuple, the remaining keyword mapping and the
variadic-keyword mapping. -/
structure ParsedOut where
  known_args : List Value
  var_args : Value
  kwargs : List (String × Value)
  var_kwargs : Value

/-- The merge phase of `parse_args` of parsing.py: split the actual
arguments with `restore_args`, stash positional overflow under the
variadic-positional name (or the literal name `args`), stash or splice the
additional keyword entries, and zip the known positional values with the
argument names, checking duplicate bindings against the original keyword
mapping. -/
def mergedKwargs (spec : ArgsSpec) (all_args : List Value)
    (all_kwargs : List (String × Value)) : Except PError (List (String × Value)) :=
  let args_names := spec.args_names
  let known_args := knownArgsOf spec all_args
  let additional_args := additionalArgsOf spec all_args
  let known_kwargs := all_kwargs.filter (fun kv => args_names.contains kv.1)
  let additional_kwargs := all_kwargs.filter (fun kv => !(args_names.contains kv.1))
  let known_kwargs :=
    if additional_args.isEmpty then known_kwargs
    else ainsert known_kwargs (spec.var_args_name.getD "args") (.vTuple additional_args)
  let known_kwargs :=
    if additional_kwargs.isEmpty then known_kwargs
    else
      match spec.var_kwargs_name with
      | some n => ainsert known_kwargs n (.vDict additional_kwargs)
      | none => additional_kwargs.foldl (fun d kv => ainsert d kv.1 kv.2) known_kwargs
  zipInsertArgs all_kwargs (known_args.zip args_names) known_kwargs

/-- The restoration phase of `parse_args`: pop the first
`positional_args_end` argument names (all of them when the boundary is null)
from the validated mapping into the positional tuple, pop the
variadic-positional entry (default empty tuple), pop the variadic-keyword
entry (default empty dict); the rest is the restored keyword mapping. -/
def restoreShape (spec : ArgsSpec) (parsed : List (String × Value)) :
    Except PError ParsedOut :=
  let pos_names :=
    match spec.positional_args_end with
    | none => spec.args_names
    | some k => spec.args_names.take k
  match popMany pos_names parsed with
  | .error e => .error e
  | .ok (knownVals, parsed1) =>
      let r1 := popDefault parsed1 spec.var_args_name (.vTuple [])
      let r2 := popDefault r1.2 spec.var_kwargs_name (.vDict [])
      .ok ⟨knownVals, r1.1, r2.2, r2.1⟩

/-- `parse_args` of parsing.py, parameterized by the validation engine:
merge the actual arguments into the flat keyword mapping, validate it, and
restore the call shape from the validated mapping. -/
def parse_args_with
    (engine : List (String × Value) → Except VErr (List (String × Value)))
    (spec : ArgsSpec) (all_args : List Value) (all_kwargs : List (String × Value)) :
    Except PError ParsedOut :=
  match mergedKwargs spec all_args all_kwargs with
  | .error e => .error e
  | .ok merged =>
    match engine merged with
    | .error e => .error (.validation e)
    | .ok parsed => restoreShape spec parsed

/-- `parse_args` with the engine instantiated to the pydantic model built
from the field definitions. -/
def parse_args (model : List (String × FieldDef)) (spec : ArgsSpec)
    (all_args : List Value) (all_kwargs : List (String × Value)) :
    Except PError ParsedOut :=
  parse_args_with (validate_model model) spec all_args all_kwargs

/-- Splat a restored variadic-positional value into positional arguments. -/
def tupleElems : Value → List Value
  | .vTuple l => l
  | v => [v]

/-- Splat a restored variadic-keyword value into keyword arguments. -/
def dictElems : Value → List (String × Value)
  | .vDict l => l
  | _ => []

/-- The wrapper closure `got_it.wrap` installs, parameterized by the engine
and by the wrapped callable (a function of the splatted positional and
keyword arguments): parse the call, and only on success invoke the wrapped
callable with the restored shape
`wrapped(*known_args, *args, **known_kwargs, **kwargs)`. -/
def wrapper_with
    (engine : List (String × Value) → Except VErr (List (String × Value)))
    (wrapped : List Value → List (String × Value) → Value)
    (spec : ArgsSpec) (all_args : List Value) (all_kwargs : List (String × Value)) :
    Except PError Value :=
  match parse_args_with engine spec all_args all_kwargs with
  | .error e => .error e
  | .ok r => .ok (wrapped (r.known_args ++ tupleElems r.var_args)
                          (r.kwargs ++ dictElems r.var_kwargs))

/-- The wrapper with the pydantic engine on the given model. -/
def wrapper (model : List (String × FieldDef))
    (wrapped : List Value → List (String × Value) → Value)
    (spec : ArgsSpec) (all_args : List Value) (all_kwargs : List (String × Value)) :
    Except PError Value :=
  wrapper_with (validate_model model) wrapped spec all_args all_kwargs

/-- A failure of the return checking path: a propagated engine error, the
KeyError of the final reserved-key lookup, or the AttributeError pydantic
raises when the validated input is not a mapping. -/
inductive RError where
  | validation (e : VErr)
  | keyError (name : String)
  | notAMapping

/-- `got_it.prepare_returns_model` of decorators.py: a model with the single
field named `returns`, required, typed by the declared return annotation. -/
def prepare_returns_model (return_type : FType) : List (String × FieldDef) :=
  [("returns", .typed return_type .required)]

/-- `prepare_models` of parsing.py builds its return model differently: a
model whose single field is the reserved key `__root__`. -/
def root_returns_model (return_type : FType) : List (String × FieldDef) :=
  [("__root__", .typed return_type .required)]

/-- `parse_result` of parsing.py: feed the raw return value to
`validate_model` (which requires a mapping), raise any validation error,
then take the entry under the reserved key `__root__` (a KeyError when the
model has no such field). -/
def parse_result (model : List (String × FieldDef)) (result : Value) :
    Except RError Value :=
  match result with
  | .vDict d =>
      match validate_model model d with
      | .error e => .error (.validation e)
      | .ok parsed =>
          match aget parsed "__root__" with
          | some v => .ok v
          | none => .error (.keyError "__root__")
  | _ => .error .notAMapping

/-- A class member as the reflection interface reports it: the flags
`all_methods` inspects to decide whether and how to wrap. -/
structure Member where
  is_ignored : Bool
  is_class : Bool
  is_callable : Bool
  is_prop : Bool
  is_cls_or_static : Bool

/-- The `__dict__` of one class: member names with their values, in
enumeration order. -/
structure ClsDict where
  attrs : List (String × Member)

/-- The `attr.startswith("_")` test of `all_methods`. -/
def sundered (a : String) : Bool :=
  match a.data with
  | [] => false
  | c :: _ => c == '_'

/-- The inner loop of `all_methods.wrap` over one class `__dict__`: skip
names already seen, mark every visited name seen regardless of outcome, skip
ignored members, nested classes and sundered names not force-included, wrap
properties (their setter) and callables or class/static methods. Returns the
final seen set and the names wrapped, in order. -/
def visitAttrs (incl : List String) :
    List (String × Member) → List String → List String → List String × List String
  | [], seen, events => (seen, events)
  | (attr, obj) :: rest, seen, events =>
      if seen.contains attr then visitAttrs incl rest seen events
      else
        let seen1 := attr :: seen
        if obj.is_ignored || (obj.is_class || (sundered attr && !(incl.contains attr))) then
          visitAttrs incl rest seen1 events
        else if obj.is_prop then
          visitAttrs incl rest seen1 (events ++ [attr])
        else if obj.is_callable || obj.is_cls_or_static then
          visitAttrs incl rest seen1 (events ++ [attr])
        else
          visitAttrs incl rest seen1 events

/-- The outer loop of `all_methods.wrap` over `classes_to_wrap` (the class
itself, or its method resolution order when bases are included). -/
def visitClasses (incl : List String) :
    List ClsDict → List String → List String → List String × List String
  | [], seen, events => (seen, events)
  | c :: rest, seen, events =>
      let r := visitAttrs incl c.attrs seen events
      visitClasses incl rest r.1 r.2

/-- One application of the `wrap` closure returned by `all_methods` to a
class: the per-class seen set starts from the given set (a fresh copy of
`exclude` on the first application, via `defaultdict(exclude.copy)`), and
every qualifying not-yet-seen member is wrapped. -/
def all_methods_wrap (incl : List String) (seenStart : List String)
    (classes : List ClsDict) : List String × List String :=
  visitClasses incl classes seenStart []

/-- A fixed positional-or-keyword parameter annotated `Any` with no default. -/
def mkFixedParam (n : String) : Param := ⟨n, some .fAny, none, .posOrKw⟩

/-- The parameter list of a callable with fixed positional-capable parameters
`fs`, a variadic-positional slot `va` and a variadic-keyword slot `vk`
(both unannotated), as in `def f(a, b, *args, **kwargs)`. -/
def mkRoundTripParams (fs : List String) (va vk : String) : List Param :=
  fs.map mkFixedParam ++ [⟨va, none, none, .varPos⟩, ⟨vk, none, none, .varKw⟩]

/-- The `ArgsSpec` the analysis produces on `mkRoundTripParams`: one `Any`
required field per fixed name, a `Tuple[Any, ...]` field with empty-tuple
default for the variadic-positional slot, a `Dict[str, Any]` field with
empty-dict default for the variadic-keyword slot, and the boundary at the
number of fixed parameters. -/
def rtSpec (fs : List String) (va vk : String) : ArgsSpec :=
  ⟨fs.map (fun n => (n, .typed .fAny .required))
      ++ [(va, .typed .fTupleAny (.val (.vTuple []))),
          (vk, .typed .fDictStrAny (.val (.vDict [])))],
   fs ++ [va, vk], some va, some vk, some fs.length⟩

/-- The `ArgsSpec` the analysis produces on a signature whose parameters are
all positional-or-keyword (annotated `Any`, no defaults): every name is a
required field and the positional boundary is unbounded. -/
def posOnlySpec (fs : List String) : ArgsSpec :=
  ⟨fs.map (fun n => (n, .typed .fAny .required)), fs, none, none, none⟩

/-! ### Association list lemmas -/

theorem amem_iff {α : Type} (d : List (String × α)) (k : String) :
    amem d k = true ↔ k ∈ d.map (·.1) := by
  simp only [amem, List.any_eq_true, beq_iff_eq, List.mem_map]

theorem aget_eq_none {α : Type} (d : List (String × α)) (k : String) :
    aget d k = none ↔ k ∉ d.map (·.1) := by
  simp only [aget, Option.map_eq_none', List.find?_eq_none, beq_iff_eq, List.mem_map]
  aesop

theorem aget_ainsert_self {α : Type} (d : List (String × α)) (k : String) (v : α) :
    aget (ainsert d k v) k = some v := by
  induction d with
  | nil => simp [ainsert, aget]
  | cons kv rest ih =>
      by_cases h : kv.1 = k
      · simp [ainsert, h, aget]
      · rw [ainsert, if_neg (by simpa using h)]
        rw [aget, List.find?_cons_of_neg _ (by simpa using h)]
        exact ih

theorem ainsert_notmem {α : Type} (d : List (String × α)) (k : String) (v : α)
    (h : k ∉ d.map (·.1)) : ainsert d k v = d ++ [(k, v)] := by
  induction d with
  | nil => simp [ainsert]
  | cons kv rest ih =>
      simp only [List.map_cons, List.mem_cons] at h
      push_neg at h
      rw [ainsert, if_neg (by simpa using Ne.symm h.1), List.cons_append, ih h.2]

theorem ainsert_append_left {α : Type} (l₁ l₂ : List (String × α)) (k : String) (v : α)
    (h : k ∉ l₁.map (·.1)) : ainsert (l₁ ++ l₂) k v = l₁ ++ ainsert l₂ k v := by
  induction l₁ with
  | nil => simp
  | cons kv rest ih =>
      simp only [List.map_cons, List.mem_cons] at h
      push_neg at h
      rw [List.cons_append, ainsert, if_neg (by simpa using Ne.symm h.1), ih h.2,
        List.cons_append]

theorem keys_ainsert {α : Type} (d : List (String × α)) (k a : String) (v : α) :
    a ∈ (ainsert d k v).map (·.1) ↔ a ∈ d.map (·.1) ∨ a = k := by
  induction d with
  | nil => simp [ainsert]
  | cons kv rest ih =>
      by_cases h : kv.1 = k
      · subst h
        simp only [ainsert, beq_self_eq_true, if_true, List.map_cons, List.mem_cons]
        tauto
      · rw [ainsert, if_neg (by simpa using h)]
        simp only [List.map_cons, List.mem_cons, ih]
        tauto

theorem aget_append_none {α : Type} (l₁ l₂ : List (String × α)) (k : String)
    (h : k ∉ l₁.map (·.1)) : aget (l₁ ++ l₂) k = aget l₂ k := by
  have h1 : l₁.find? (fun kv => kv.1 == k) = none := by
    simp only [List.find?_eq_none, beq_iff_eq]
    intro kv hm he
    exact h (List.mem_map.mpr ⟨kv, hm, he⟩)
  simp [aget, List.find?_append, h1]

theorem aget_append_some {α : Type} (l₁ l₂ : List (String × α)) (k : String) (v : α)
    (h : aget l₁ k = some v) : aget (l₁ ++ l₂) k = some v := by
  rw [aget, Option.map_eq_some'] at h
  obtain ⟨kv, hf, he⟩ := h
  rw [aget, List.find?_append, hf]
  simpa using he

theorem aget_of_mem_nodup {α : Type} (l : List (String × α)) (k : String) (v : α)
    (hnd : (l.map (·.1)).Nodup) (hm : (k, v) ∈ l) : aget l k = some v := by
  induction l with
  | nil => simp at hm
  | cons kv rest ih =>
      simp only [List.map_cons, List.nodup_cons] at hnd
      rcases List.mem_cons.mp hm with h | h
      · subst h; simp [aget]
      · have hk : kv.1 ≠ k := by
          intro he
          exact hnd.1 (List.mem_map.mpr ⟨(k, v), h, he.symm⟩)
        rw [aget, List.find?_cons_of_neg _ (by simpa using hk)]
        exact ih hnd.2 h

/-! ### Zip and fold lemmas -/

theorem zip_stop {α β : Type} (xs : List α) : ∀ (fs l : List β),
    xs.length ≤ fs.length → xs.zip (fs ++ l) = xs.zip fs := by
  induction xs with
  | nil => intro fs l _; simp
  | cons x xt ih =>
      intro fs l h
      cases fs with
      | nil => simp at h
      | cons f ft =>
          simp only [List.cons_append, List.zip_cons_cons, List.cons.injEq, true_and]
          exact ih ft l (by simpa using h)

theorem zip_take_left {α β : Type} (fs : List β) : ∀ (args : List α),
    fs.length ≤ args.length → args.zip fs = (args.take fs.length).zip fs := by
  induction fs with
  | nil => intro args _; simp
  | cons f ft ih =>
      intro args h
      cases args with
      | nil => simp at h
      | cons a at_ =>
          simp only [List.length_cons, List.take_succ_cons, List.zip_cons_cons,
            List.cons.injEq, true_and]
          exact ih at_ (by simpa using h)

theorem zip_swap_pair {α β : Type} (xs : List α) : ∀ (fs : List β),
    (xs.zip fs).map (fun p => (p.2, p.1)) = fs.zip xs := by
  induction xs with
  | nil => intro fs; simp
  | cons x xt ih =>
      intro fs
      cases fs with
      | nil => simp
      | cons f ft => simp [ih]

theorem foldl_ainsert_pairs {α : Type} : ∀ (l d : List (String × α)),
    (∀ p ∈ l, p.1 ∉ d.map (·.1)) → (l.map (·.1)).Nodup →
    l.foldl (fun d2 kv => ainsert d2 kv.1 kv.2) d = d ++ l := by
  intro l
  induction l with
  | nil => intro d _ _; simp
  | cons kv rest ih =>
      intro d hfresh hnd
      simp only [List.map_cons, List.nodup_cons] at hnd
      have h1 : ainsert d kv.1 kv.2 = d ++ [kv] := by
        rw [ainsert_notmem _ _ _ (hfresh kv (by simp))]
      simp only [List.foldl_cons, h1]
      rw [ih (d ++ [kv])]
      · simp
      · intro p hp
        simp only [List.map_append, List.mem_append, List.map_cons, List.map_nil,
          List.mem_singleton]
        push_neg
        refine ⟨hfresh p (by simp [hp]), ?_⟩
        intro he
        exact hnd.1 (he ▸ List.mem_map.mpr ⟨p, hp, rfl⟩)
      · exact hnd.2

/-! ### Signature analysis lemmas -/

theorem specLoop_append (ig st : Bool) (l₁ : List Param) : ∀ (l₂ : List Param) (i : Nat) (s : SpecState),
    specLoop ig st i s (l₁ ++ l₂) =
      match specLoop ig st i s l₁ with
      | .error e => .error e
      | .ok s1 => specLoop ig st (i + l₁.length) s1 l₂ := by
  induction l₁ with
  | nil => intro l₂ i s; simp [specLoop]
  | cons p rest ih =>
      intro l₂ i s
      simp only [List.cons_append, specLoop]
      cases specStep ig st i s p with
      | error e => rfl
      | ok s1 =>
          dsimp only
          show specLoop ig st (i + 1) s1 (rest ++ l₂) = _
          rw [ih]
          have he : i + 1 + rest.length = i + (rest.length + 1) := by omega
          simp only [List.length_cons, he]

theorem specStep_fixedAny (ig st : Bool) (i : Nat) (s : SpecState) (n : String) :
    specStep ig st i s (mkFixedParam n) = .ok { s with field_definitions := ainsert s.field_definitions n (.typed .fAny .required) } := by
  cases st <;> rfl

theorem specLoop_fixed (ig st : Bool) (fs : List String) : ∀ (i : Nat) (s : SpecState),
    specLoop ig st i s (fs.map mkFixedParam) = .ok { s with field_definitions := fs.foldl (fun d n => ainsert d n (.typed .fAny .required)) s.field_definitions } := by
  induction fs with
  | nil => intro i s; simp [specLoop]
  | cons f ft ih =>
      intro i s
      simp only [List.map_cons, specLoop, specStep_fixedAny, List.foldl_cons]
      exact ih (i + 1) _

theorem foldl_ainsert_names {α : Type} (F : α) (fs : List String) : ∀ (d : List (String × α)),
    fs.Nodup → (∀ n ∈ fs, n ∉ d.map (·.1)) →
    fs.foldl (fun d2 n => ainsert d2 n F) d = d ++ fs.map (fun n => (n, F)) := by
  induction fs with
  | nil => intro d _ _; simp
  | cons f ft ih =>
      intro d hnd hfresh
      simp only [List.nodup_cons] at hnd
      simp only [List.foldl_cons]
      rw [ainsert_notmem _ _ _ (hfresh f (by simp))]
      rw [ih (d ++ [(f, F)]) hnd.2]
      · simp
      · intro n hn
        simp only [List.map_append, List.mem_append, List.map_cons, List.map_nil,
          List.mem_singleton]
        push_neg
        refine ⟨hfresh n (by simp [hn]), ?_⟩
        intro he
        exact hnd.1 (he ▸ hn)

/-- Keys of the field list built from a name list. -/
theorem keys_map_pair {α : Type} (F : α) (fs : List String) :
    (fs.map (fun n => (n, F))).map (·.1) = fs := by
  simp [List.map_map, Function.comp_def]

/-- The analysis loop on the round-trip parameter family. -/
theorem specLoop_roundTrip (fs : List String) (va vk : String)
    (hnd : fs.Nodup) (hva : va ∉ fs) (hvk : vk ∉ fs) (hne : va ≠ vk) :
    specLoop false false 0 initState (mkRoundTripParams fs va vk)
      = .ok ⟨(rtSpec fs va vk).field_definitions, some va, some vk, some fs.length⟩ := by
  unfold mkRoundTripParams
  rw [specLoop_append, specLoop_fixed]
  dsimp only [initState]
  rw [foldl_ainsert_names _ _ _ hnd (by simp)]
  simp only [List.nil_append, List.length_map, Nat.zero_add]
  show specLoop false false fs.length ⟨fs.map (fun n => (n, .typed .fAny .required)), none, none, none⟩ [⟨va, none, none, .varPos⟩, ⟨vk, none, none, .varKw⟩] = _
  have hva1 : va ∉ (fs.map (fun n => (n, FieldDef.typed .fAny .required))).map (·.1) := by
    rw [keys_map_pair]; exact hva
  have hvk1 : vk ∉ ((fs.map (fun n => (n, FieldDef.typed .fAny .required))) ++ [(va, FieldDef.typed .fTupleAny (.val (.vTuple [])))]).map (·.1) := by
    simp only [List.map_append, List.mem_append, keys_map_pair]
    push_neg
    exact ⟨hvk, by simp [Ne.symm hne]⟩
  show (Except.ok ⟨ainsert (ainsert (fs.map (fun n => (n, FieldDef.typed .fAny .required))) va (FieldDef.typed .fTupleAny (.val (.vTuple [])))) vk (FieldDef.typed .fDictStrAny (.val (.vDict []))), some va, some vk, some fs.length⟩ : Except String SpecState) = Except.ok ⟨(rtSpec fs va vk).field_definitions, some va, some vk, some fs.length⟩
  rw [ainsert_notmem _ _ _ hva1, ainsert_notmem _ _ _ hvk1]
  simp [rtSpec]

/-- Signature analysis on the round-trip parameter family computes `rtSpec`. -/
theorem got_it_spec_roundTrip (fs : List String) (va vk : String)
    (hnd : fs.Nodup) (hva : va ∉ fs) (hvk : vk ∉ fs) (hne : va ≠ vk) :
    got_it_get_args_spec (mkRoundTripParams fs va vk) false false = .ok (rtSpec fs va vk) := by
  unfold got_it_get_args_spec
  rw [specLoop_roundTrip fs va vk hnd hva hvk hne]
  dsimp only
  simp only [rtSpec, List.map_append, keys_map_pair]
  rfl

/-! ### Engine lemmas -/

theorem processFields_append (data : List (String × Value)) (a : List (String × FieldDef)) :
    ∀ (b : List (String × FieldDef)), processFields data (a ++ b) =
      match processFields data a with
      | .error e => .error e
      | .ok x =>
          match processFields data b with
          | .error e => .error e
          | .ok y => .ok (x ++ y) := by
  induction a with
  | nil =>
      intro b
      simp only [List.nil_append, processFields]
      cases processFields data b <;> simp
  | cons hd tl ih =>
      intro b
      obtain ⟨n, fd⟩ := hd
      simp only [List.cons_append, processFields]
      cases hhead : (match aget data n with
        | some v =>
            match fieldCoerce fd v with
            | some v1 => Except.ok (n, v1)
            | none => Except.error (VErr.invalidType n)
        | none =>
            match fieldDefault fd with
            | some v => Except.ok (n, v)
            | none => Except.error (VErr.missingField n)) with
      | error e => rfl
      | ok hv =>
          dsimp only
          simp only [List.append_eq]
          rw [ih b]
          cases processFields data tl with
          | error e => rfl
          | ok x =>
              cases processFields data b <;> rfl

theorem processFields_anyFields (data : List (String × Value)) :
    ∀ (l : List (String × Value)), (∀ p ∈ l, aget data p.1 = some p.2) →
    processFields data (l.map (fun p => (p.1, FieldDef.typed .fAny .required))) = .ok l := by
  intro l
  induction l with
  | nil => intro _; rfl
  | cons p rest ih =>
      intro h
      simp only [List.map_cons, processFields, h p (by simp), fieldCoerce, coerce]
      rw [ih (fun q hq => h q (by simp [hq]))]

theorem extras_none (fields : List (String × FieldDef)) (data : List (String × Value))
    (h : ∀ kv ∈ data, kv.1 ∈ fields.map (·.1)) :
    data.find? (fun kv => !(fields.any (fun f => f.1 == kv.1))) = none := by
  rw [List.find?_eq_none]
  intro kv hm
  obtain ⟨f, hf, he⟩ := List.mem_map.mp (h kv hm)
  simp only [Bool.not_eq_true', Bool.not_eq_false]
  rw [List.any_eq_true]
  exact ⟨f, hf, by simp [he]⟩

/-! ### Merge and restoration lemmas -/

theorem zipInsertArgs_ok (all_kwargs : List (String × Value)) :
    ∀ (pairs : List (Value × String)) (kk : List (String × Value)),
    (∀ p ∈ pairs, amem all_kwargs p.2 = false) →
    ((pairs.map (·.2)).Nodup) →
    (∀ p ∈ pairs, p.2 ∉ kk.map (·.1)) →
    zipInsertArgs all_kwargs pairs kk = .ok (kk ++ pairs.map (fun p => (p.2, p.1))) := by
  intro pairs
  induction pairs with
  | nil => intro kk _ _ _; simp [zipInsertArgs]
  | cons p rest ih =>
      intro kk hc hnd hfresh
      obtain ⟨arg, name⟩ := p
      simp only [List.map_cons, List.nodup_cons] at hnd
      rw [zipInsertArgs, if_neg (by simp [hc (arg, name) (by simp)])]
      rw [ainsert_notmem kk name arg (hfresh (arg, name) (by simp))]
      rw [ih (kk ++ [(name, arg)]) (fun q hq => hc q (by simp [hq])) hnd.2]
      · simp
      · intro q hq
        simp only [List.map_append, List.mem_append, List.map_cons, List.map_nil,
          List.mem_singleton]
        push_neg
        refine ⟨hfresh q (by simp [hq]), ?_⟩
        intro he
        exact hnd.1 (he ▸ List.mem_map.mpr ⟨q, hq, rfl⟩)

theorem popMany_exact : ∀ (l rest : List (String × Value)),
    popMany (l.map (·.1)) (l ++ rest) = .ok (l.map (·.2), rest) := by
  intro l
  induction l with
  | nil => intro rest; rfl
  | cons kv tl ih =>
      intro rest
      simp only [List.map_cons, List.cons_append, popMany, apop, beq_self_eq_true, if_true]
      simp only [List.append_eq]
      rw [ih rest]

theorem zip_map_fst_eq {α β : Type} (fs : List α) : ∀ (xs : List β),
    fs.length = xs.length → (fs.zip xs).map (·.1) = fs := by
  induction fs with
  | nil => intro xs _; simp
  | cons f ft ih =>
      intro xs h
      cases xs with
      | nil => simp at h
      | cons x xt => simp only [List.zip_cons_cons, List.map_cons]; rw [ih xt (by simpa using h)]

theorem zip_map_snd_eq {α β : Type} (fs : List α) : ∀ (xs : List β),
    fs.length = xs.length → (fs.zip xs).map (·.2) = xs := by
  induction fs with
  | nil =>
      intro xs h
      cases xs with
      | nil => simp
      | cons x xt => simp at h
  | cons f ft ih =>
      intro xs h
      cases xs with
      | nil => simp at h
      | cons x xt => simp only [List.zip_cons_cons, List.map_cons]; rw [ih xt (by simpa using h)]

theorem zip_map_pairF {α β γ : Type} (F : γ) (fs : List α) : ∀ (xs : List β),
    fs.length = xs.length → (fs.zip xs).map (fun p => (p.1, F)) = fs.map (fun n => (n, F)) := by
  induction fs with
  | nil => intro xs _; simp
  | cons f ft ih =>
      intro xs h
      cases xs with
      | nil => simp at h
      | cons x xt => simp only [List.zip_cons_cons, List.map_cons]; rw [ih xt (by simpa using h)]

theorem mem_zip_snd {α β : Type} (xs : List α) : ∀ (fs : List β) (p : α × β),
    p ∈ xs.zip fs → p.2 ∈ fs := by
  induction xs with
  | nil => intro fs p h; simp [List.zip] at h
  | cons x xt ih =>
      intro fs p h
      cases fs with
      | nil => simp [List.zip] at h
      | cons f ft =>
          rcases List.mem_cons.mp h with h1 | h1
          · subst h1; simp
          · exact List.mem_cons.mpr (Or.inr (ih ft p h1))

/-- The merge phase on the round-trip family: the flat mapping handed to the
engine holds the overflow tuple under the variadic-positional name (when
non-empty), the additional keyword mapping under the variadic-keyword name
(when non-empty), and each fixed name bound to its positional value. -/
theorem mergedKwargs_roundTrip (fs : List String) (va vk : String)
    (xs ys : List Value) (ek : List (String × Value))
    (hnd : fs.Nodup) (hva : va ∉ fs) (hvk : vk ∉ fs) (hne : va ≠ vk)
    (hlen : xs.length = fs.length)
    (hek : ∀ kv ∈ ek, kv.1 ∉ fs ∧ kv.1 ≠ va ∧ kv.1 ≠ vk) :
    mergedKwargs (rtSpec fs va vk) (xs ++ ys) ek
      = .ok (((if ys.isEmpty then [] else [(va, Value.vTuple ys)])
          ++ (if ek.isEmpty then [] else [(vk, Value.vDict ek)])) ++ fs.zip xs) := by
  have h1 : knownArgsOf (rtSpec fs va vk) (xs ++ ys) = xs := by
    simp only [knownArgsOf, rtSpec]
    rw [← hlen]
    exact List.take_left _ _
  have h2 : additionalArgsOf (rtSpec fs va vk) (xs ++ ys) = ys := by
    simp only [additionalArgsOf, rtSpec]
    rw [← hlen]
    exact List.drop_left _ _
  have h3 : ek.filter (fun kv => ((fs ++ [va, vk]).contains kv.1)) = [] := by
    rw [List.filter_eq_nil_iff]
    intro kv hkv
    obtain ⟨ha, hb, hc⟩ := hek kv hkv
    simp [ha, hb, hc]
  have h4 : ek.filter (fun kv => !((fs ++ [va, vk]).contains kv.1)) = ek := by
    rw [List.filter_eq_self]
    intro kv hkv
    obtain ⟨ha, hb, hc⟩ := hek kv hkv
    simp [ha, hb, hc]
  have hzip : xs.zip (fs ++ [va, vk]) = xs.zip fs :=
    zip_stop xs fs [va, vk] (Nat.le_of_eq hlen)
  have hsnd : (xs.zip fs).map (·.2) = fs := by
    have := zip_map_snd_eq xs fs ?_
    · exact this
    · omega
  have hswap : (xs.zip fs).map (fun p => (p.2, p.1)) = fs.zip xs := zip_swap_pair xs fs
  have hconf : ∀ p ∈ xs.zip fs, amem ek p.2 = false := by
    intro p hp
    have hmem : p.2 ∈ fs := mem_zip_snd xs fs p hp
    rw [Bool.eq_false_iff]
    intro hamem
    obtain ⟨kv, hkv, he⟩ := by
      have := (amem_iff ek p.2).mp hamem
      exact List.mem_map.mp this
    exact (hek kv hkv).1 (he ▸ hmem)
  have hnames : (rtSpec fs va vk).args_names = fs ++ [va, vk] := rfl
  have hvan : (rtSpec fs va vk).var_args_name = some va := rfl
  have hvkn : (rtSpec fs va vk).var_kwargs_name = some vk := rfl
  unfold mergedKwargs
  simp only [hnames, hvan, hvkn, h1, h2, h3, h4, hzip, Option.getD_some]
  by_cases hy : ys.isEmpty = true <;> by_cases hk : ek.isEmpty = true
  · rw [if_pos hy, if_pos hk]
    rw [zipInsertArgs_ok ek (xs.zip fs) [] hconf (by rw [hsnd]; exact hnd) (by simp)]
    rw [if_pos hy, if_pos hk]
    simp [hswap]
  · rw [if_pos hy, if_neg hk]
    rw [show (ainsert ([] : List (String × Value)) vk (Value.vDict ek)) = [(vk, Value.vDict ek)] from rfl]
    rw [zipInsertArgs_ok ek (xs.zip fs) [(vk, Value.vDict ek)] hconf
      (by rw [hsnd]; exact hnd)
      (by intro p hp; have := mem_zip_snd xs fs p hp; simp; intro he; exact hvk (he ▸ this))]
    rw [if_pos hy, if_neg hk]
    simp [hswap]
  · rw [if_neg hy, if_pos hk]
    rw [show (ainsert ([] : List (String × Value)) va (Value.vTuple ys)) = [(va, Value.vTuple ys)] from rfl]
    rw [zipInsertArgs_ok ek (xs.zip fs) [(va, Value.vTuple ys)] hconf
      (by rw [hsnd]; exact hnd)
      (by intro p hp; have := mem_zip_snd xs fs p hp; simp; intro he; exact hva (he ▸ this))]
    rw [if_neg hy, if_pos hk]
    simp [hswap]
  · rw [if_neg hy, if_neg hk]
    rw [show (ainsert (ainsert ([] : List (String × Value)) va (Value.vTuple ys)) vk (Value.vDict ek))
      = [(va, Value.vTuple ys), (vk, Value.vDict ek)] from by
        simp [ainsert, Ne.symm hne, hne]]
    rw [zipInsertArgs_ok ek (xs.zip fs) [(va, Value.vTuple ys), (vk, Value.vDict ek)] hconf
      (by rw [hsnd]; exact hnd)
      (by
        intro p hp
        have := mem_zip_snd xs fs p hp
        simp
        constructor
        · intro he; exact hva (he ▸ this)
        · intro he; exact hvk (he ▸ this))]
    rw [if_neg hy, if_neg hk]
    simp [hswap]

theorem mem_zip_fst {α β : Type} (xs : List α) : ∀ (fs : List β) (p : α × β),
    p ∈ xs.zip fs → p.1 ∈ xs := by
  induction xs with
  | nil => intro fs p h; simp [List.zip] at h
  | cons x xt ih =>
      intro fs p h
      cases fs with
      | nil => simp [List.zip] at h
      | cons f ft =>
          rcases List.mem_cons.mp h with h1 | h1
          · subst h1; simp
          · exact List.mem_cons.mpr (Or.inr (ih ft p h1))

/-- The engine on the merged round-trip mapping: every field comes back in
schema order, the fixed names bound to their positional values, the variadic
slots to the overflow tuple and the additional keyword mapping (their
declared empty defaults when the call supplied none). -/
theorem validate_model_roundTrip (fs : List String) (va vk : String)
    (xs ys : List Value) (ek : List (String × Value))
    (hnd : fs.Nodup) (hva : va ∉ fs) (hvk : vk ∉ fs) (hne : va ≠ vk)
    (hlen : xs.length = fs.length) :
    validate_model (rtSpec fs va vk).field_definitions
      (((if ys.isEmpty then [] else [(va, Value.vTuple ys)])
        ++ (if ek.isEmpty then [] else [(vk, Value.vDict ek)])) ++ fs.zip xs)
      = .ok (fs.zip xs ++ [(va, .vTuple ys), (vk, .vDict ek)]) := by
  have hflen : fs.length = xs.length := hlen.symm
  have hzfst : (fs.zip xs).map (·.1) = fs := zip_map_fst_eq fs xs hflen
  have hABkeys : ∀ kv ∈ ((if ys.isEmpty then [] else [(va, Value.vTuple ys)])
      ++ (if ek.isEmpty then [] else [(vk, Value.vDict ek)])), kv.1 = va ∨ kv.1 = vk := by
    intro kv hkv
    rcases List.mem_append.mp hkv with h | h
    · left
      by_cases hy : ys.isEmpty = true
      · rw [if_pos hy] at h; simp at h
      · rw [if_neg hy] at h; simp at h; rw [h]
    · right
      by_cases hk : ek.isEmpty = true
      · rw [if_pos hk] at h; simp at h
      · rw [if_neg hk] at h; simp at h; rw [h]
  have hdatakeys : ∀ kv ∈ (((if ys.isEmpty then [] else [(va, Value.vTuple ys)])
      ++ (if ek.isEmpty then [] else [(vk, Value.vDict ek)])) ++ fs.zip xs),
      kv.1 ∈ (rtSpec fs va vk).field_definitions.map (·.1) := by
    have hkeys : ((rtSpec fs va vk).field_definitions).map (·.1) = fs ++ [va, vk] := by
      show (fs.map (fun n => (n, FieldDef.typed .fAny .required)) ++ _).map (·.1) = _
      rw [List.map_append, keys_map_pair]
      rfl
    rw [hkeys]
    intro kv hkv
    rcases List.mem_append.mp hkv with h | h
    · rcases hABkeys kv h with h1 | h1 <;> simp [h1]
    · have := mem_zip_fst fs xs kv h
      simp [this]
  have hgetfix : ∀ p ∈ fs.zip xs,
      aget (((if ys.isEmpty then [] else [(va, Value.vTuple ys)])
        ++ (if ek.isEmpty then [] else [(vk, Value.vDict ek)])) ++ fs.zip xs) p.1
      = some p.2 := by
    intro p hp
    have hp1 : p.1 ∈ fs := mem_zip_fst fs xs p hp
    rw [aget_append_none]
    · obtain ⟨a, b⟩ := p
      exact aget_of_mem_nodup _ _ _ (by rw [hzfst]; exact hnd) hp
    · intro hmem
      obtain ⟨kv, hkv, he⟩ := List.mem_map.mp hmem
      rcases hABkeys kv hkv with h1 | h1
      · exact hva ((he.symm.trans h1) ▸ hp1)
      · exact hvk ((he.symm.trans h1) ▸ hp1)
  have hfieldsplit : (rtSpec fs va vk).field_definitions
      = (fs.zip xs).map (fun p => (p.1, FieldDef.typed .fAny .required))
        ++ [(va, FieldDef.typed .fTupleAny (.val (.vTuple []))),
            (vk, FieldDef.typed .fDictStrAny (.val (.vDict [])))] := by
    show fs.map (fun n => (n, FieldDef.typed .fAny .required)) ++ _ = _
    rw [zip_map_pairF _ fs xs hflen]
  have hgetva : aget (((if ys.isEmpty then [] else [(va, Value.vTuple ys)])
      ++ (if ek.isEmpty then [] else [(vk, Value.vDict ek)])) ++ fs.zip xs) va
      = (if ys.isEmpty then none else some (Value.vTuple ys)) := by
    by_cases hy : ys.isEmpty = true
    · rw [if_pos hy, if_pos hy]
      have h1 : va ∉ (([] : List (String × Value))
          ++ (if ek.isEmpty then [] else [(vk, Value.vDict ek)])).map (·.1) := by
        by_cases hk : ek.isEmpty = true
        · rw [if_pos hk]; simp
        · rw [if_neg hk]; simp [hne]
      rw [aget_append_none _ _ _ h1, aget_eq_none, hzfst]
      exact hva
    · rw [if_neg hy, if_neg hy]
      apply aget_append_some
      apply aget_append_some
      simp [aget]
  have hgetvk : aget (((if ys.isEmpty then [] else [(va, Value.vTuple ys)])
      ++ (if ek.isEmpty then [] else [(vk, Value.vDict ek)])) ++ fs.zip xs) vk
      = (if ek.isEmpty then none else some (Value.vDict ek)) := by
    have hAnovk : vk ∉ ((if ys.isEmpty then [] else [(va, Value.vTuple ys)])).map
        (fun x => x.1) := by
      by_cases hy : ys.isEmpty = true
      · rw [if_pos hy]; simp
      · rw [if_neg hy]; simp [Ne.symm hne]
    by_cases hk : ek.isEmpty = true
    · rw [if_pos hk, if_pos hk]
      have h1 : vk ∉ ((if ys.isEmpty then [] else [(va, Value.vTuple ys)])
          ++ ([] : List (String × Value))).map (·.1) := by
        simpa using hAnovk
      rw [aget_append_none _ _ _ h1, aget_eq_none, hzfst]
      exact hvk
    · rw [if_neg hk, if_neg hk]
      apply aget_append_some
      rw [aget_append_none _ _ _ hAnovk]
      simp [aget]
  unfold validate_model
  rw [extras_none _ _ hdatakeys]
  rw [hfieldsplit, processFields_append]
  rw [processFields_anyFields _ (fs.zip xs) hgetfix]
  have htail : processFields (((if ys.isEmpty then [] else [(va, Value.vTuple ys)])
      ++ (if ek.isEmpty then [] else [(vk, Value.vDict ek)])) ++ fs.zip xs)
      [(va, FieldDef.typed .fTupleAny (.val (.vTuple []))),
       (vk, FieldDef.typed .fDictStrAny (.val (.vDict [])))]
      = .ok [(va, Value.vTuple ys), (vk, Value.vDict ek)] := by
    simp only [processFields, hgetva, hgetvk]
    by_cases hy : ys.isEmpty = true <;> by_cases hk : ek.isEmpty = true
    · rw [if_pos hy, if_pos hk, List.isEmpty_iff.mp hy, List.isEmpty_iff.mp hk]
      rfl
    · rw [if_pos hy, if_neg hk, List.isEmpty_iff.mp hy]
      rfl
    · rw [if_neg hy, if_pos hk, List.isEmpty_iff.mp hk]
      rfl
    · rw [if_neg hy, if_neg hk]
      rfl
  rw [htail]

/-- The restoration phase on the validated round-trip mapping. -/
theorem restoreShape_roundTrip (fs : List String) (va vk : String)
    (xs ys : List Value) (ek : List (String × Value))
    (hlen : xs.length = fs.length) :
    restoreShape (rtSpec fs va vk)
      (fs.zip xs ++ [(va, Value.vTuple ys), (vk, Value.vDict ek)])
      = .ok ⟨xs, .vTuple ys, [], .vDict ek⟩ := by
  have hflen : fs.length = xs.length := hlen.symm
  have hzfst : (fs.zip xs).map (·.1) = fs := zip_map_fst_eq fs xs hflen
  have hzsnd : (fs.zip xs).map (·.2) = xs := zip_map_snd_eq fs xs hflen
  unfold restoreShape
  have hpn : (match (rtSpec fs va vk).positional_args_end with
      | none => (rtSpec fs va vk).args_names
      | some k => (rtSpec fs va vk).args_names.take k) = fs := by
    show (fs ++ [va, vk]).take fs.length = fs
    exact List.take_left fs [va, vk]
  rw [hpn]
  have hpop : popMany fs ((fs.zip xs) ++ [(va, Value.vTuple ys), (vk, Value.vDict ek)])
      = .ok (xs, [(va, Value.vTuple ys), (vk, Value.vDict ek)]) := by
    have h := popMany_exact (fs.zip xs) [(va, Value.vTuple ys), (vk, Value.vDict ek)]
    rw [hzfst, hzsnd] at h
    exact h
  dsimp only
  rw [hpop]
  simp [rtSpec, popDefault, apop]

/-- C1 counterexample: for the signature `f(a, b, *args, **kwargs)`, the call
`f(1, 2, 3, args=9)` supplies two fixed positional values, one extra
positional value and the keyword entry `args=9`, whose name matches no fixed
parameter name; the claim then requires the additional-keyword mapping to
hold exactly that entry, but the pipeline silently overwrites it with the
overflow tuple: the restored additional-keyword mapping is empty and the
value 9 is lost. -/
theorem c1_counterexample :
    got_it_get_args_spec (mkRoundTripParams ["a", "b"] "args" "kwargs") false false
      = .ok (rtSpec ["a", "b"] "args" "kwargs")
    ∧ parse_args (rtSpec ["a", "b"] "args" "kwargs").field_definitions
        (rtSpec ["a", "b"] "args" "kwargs")
        [.vInt 1, .vInt 2, .vInt 3] [("args", .vInt 9)]
      = .ok ⟨[.vInt 1, .vInt 2], .vTuple [.vInt 3], [], .vDict []⟩
    ∧ Value.vDict [] ≠ Value.vDict [("args", Value.vInt 9)] := by
  refine ⟨rfl, rfl, fun h => ?_⟩
  simp at h

/-- C1 (amended): for every callable declaring `k` fixed positional-capable
parameters, a variadic-positional slot and a variadic-keyword slot, invoking
the wrapped callable with `k` positional values, additional positional
values, and keyword entries matching neither the fixed names nor the two
variadic slot names yields, after validation, a positional tuple of exactly
the `k` values in declaration order, an additional-positional tuple holding
exactly the overflow in original order, and an additional-keyword mapping
holding exactly the unmatched keyword entries; the wrapped callable is
invoked with exactly this restored shape. -/
theorem c1_roundtrip_amended (fs : List String) (va vk : String)
    (xs ys : List Value) (ek : List (String × Value))
    (hnd : fs.Nodup) (hva : va ∉ fs) (hvk : vk ∉ fs) (hne : va ≠ vk)
    (hlen : xs.length = fs.length)
    (hek : ∀ kv ∈ ek, kv.1 ∉ fs ∧ kv.1 ≠ va ∧ kv.1 ≠ vk) :
    got_it_get_args_spec (mkRoundTripParams fs va vk) false false = .ok (rtSpec fs va vk)
    ∧ parse_args (rtSpec fs va vk).field_definitions (rtSpec fs va vk) (xs ++ ys) ek
        = .ok ⟨xs, .vTuple ys, [], .vDict ek⟩
    ∧ ∀ wrapped, wrapper (rtSpec fs va vk).field_definitions wrapped (rtSpec fs va vk)
        (xs ++ ys) ek = .ok (wrapped (xs ++ ys) ek) := by
  have hparse : parse_args (rtSpec fs va vk).field_definitions (rtSpec fs va vk)
      (xs ++ ys) ek = .ok ⟨xs, .vTuple ys, [], .vDict ek⟩ := by
    unfold parse_args parse_args_with
    rw [mergedKwargs_roundTrip fs va vk xs ys ek hnd hva hvk hne hlen hek]
    dsimp only
    rw [validate_model_roundTrip fs va vk xs ys ek hnd hva hvk hne hlen]
    dsimp only
    exact restoreShape_roundTrip fs va vk xs ys ek hlen
  refine ⟨got_it_spec_roundTrip fs va vk hnd hva hvk hne, hparse, ?_⟩
  intro wrapped
  unfold wrapper wrapper_with
  have hparse2 : parse_args_with (validate_model (rtSpec fs va vk).field_definitions)
      (rtSpec fs va vk) (xs ++ ys) ek = .ok ⟨xs, .vTuple ys, [], .vDict ek⟩ := hparse
  rw [hparse2]
  rfl

/-- C1 witness: the concrete spec scenario `f(a, b, *args, **kwargs)` called
with two fixed values, one extra positional value and one extra keyword
entry. -/
theorem c1_roundtrip_amended_witness :
    parse_args (rtSpec ["a", "b"] "args" "kwargs").field_definitions
      (rtSpec ["a", "b"] "args" "kwargs")
      ([.vInt 1, .vInt 2] ++ [.vInt 3]) [("z", .vInt 9)]
      = .ok ⟨[.vInt 1, .vInt 2], .vTuple [.vInt 3], [], .vDict [("z", .vInt 9)]⟩ :=
  (c1_roundtrip_amended ["a", "b"] "args" "kwargs" [.vInt 1, .vInt 2] [.vInt 3]
    [("z", .vInt 9)] (by decide) (by decide) (by decide) (by decide) rfl
    (by decide)).2.1

theorem zipInsertArgs_conflict (kw : List (String × Value)) (n : String) :
    ∀ (pairs : List (Value × String)) (kk : List (String × Value)),
    n ∈ pairs.map (·.2) → amem kw n = true →
    (∀ m ∈ pairs.map (·.2), amem kw m = true → m = n) →
    zipInsertArgs kw pairs kk = .error (.multipleValues n) := by
  intro pairs
  induction pairs with
  | nil => intro kk hmem _ _; simp at hmem
  | cons p rest ih =>
      intro kk hmem hkw huniq
      obtain ⟨arg, name⟩ := p
      by_cases h : amem kw name = true
      · have he : name = n := huniq name (by simp) h
        subst he
        rw [zipInsertArgs, if_pos h]
      · have hne : n ≠ name := fun he => h (he ▸ hkw)
        rw [zipInsertArgs, if_neg h]
        apply ih
        · have h2 : n = name ∨ ∃ a, (a, n) ∈ rest := by simpa using hmem
          rcases h2 with h1 | ⟨a, h1⟩
          · exact absurd h1 hne
          · exact List.mem_map.mpr ⟨(a, n), h1, rfl⟩
        · exact hkw
        · intro m hm hmkw
          exact huniq m (by simp [hm]) hmkw

/-- C2: for a fixed parameter name `n` bound both positionally and by
keyword (and conflicting alone), the call raises the duplicate-binding
TypeError naming `n`; the error arises for every validation engine (the
check precedes the engine invocation), and the wrapped callable is never
invoked: the wrapper returns the same error whatever the wrapped callable
is. -/
theorem c2_conflict_detection
    (engine : List (String × Value) → Except VErr (List (String × Value)))
    (spec : ArgsSpec) (all_args : List Value) (all_kwargs : List (String × Value))
    (n : String)
    (hpos : n ∈ ((knownArgsOf spec all_args).zip spec.args_names).map (·.2))
    (hkw : amem all_kwargs n = true)
    (huniq : ∀ m ∈ ((knownArgsOf spec all_args).zip spec.args_names).map (·.2),
      amem all_kwargs m = true → m = n) :
    parse_args_with engine spec all_args all_kwargs = .error (.multipleValues n)
    ∧ ∀ wrapped, wrapper_with engine wrapped spec all_args all_kwargs
        = .error (.multipleValues n) := by
  have hm : mergedKwargs spec all_args all_kwargs = .error (.multipleValues n) := by
    unfold mergedKwargs
    exact zipInsertArgs_conflict all_kwargs n _ _ hpos hkw huniq
  constructor
  · unfold parse_args_with
    rw [hm]
  · intro wrapped
    unfold wrapper_with parse_args_with
    rw [hm]

/-- C2 witness: the spec scenario of a schema with fixed parameters `(a, b)`
called as `f(1, a=1)`, with the pydantic engine on that schema. -/
theorem c2_conflict_detection_witness :
    parse_args_with (validate_model (posOnlySpec ["a", "b"]).field_definitions)
      (posOnlySpec ["a", "b"]) [.vInt 1] [("a", .vInt 1)]
      = .error (.multipleValues "a") :=
  (c2_conflict_detection (validate_model (posOnlySpec ["a", "b"]).field_definitions)
    (posOnlySpec ["a", "b"]) [.vInt 1] [("a", .vInt 1)] "a"
    (by decide) (by decide) (by decide)).1

theorem find?_filter_head {α : Type} (p : α → Bool) : ∀ (l : List α) (a : α),
    l.find? p = some a → ∃ t, l.filter p = a :: t := by
  intro l
  induction l with
  | nil => intro a h; simp at h
  | cons hd tl ih =>
      intro a h
      by_cases hp : p hd = true
      · rw [List.find?_cons_of_pos _ hp] at h
        obtain rfl : hd = a := by simpa using h
        exact ⟨tl.filter p, by rw [List.filter_cons_of_pos hp]⟩
      · rw [List.find?_cons_of_neg _ (by simpa using hp)] at h
        obtain ⟨t, ht⟩ := ih a h
        exact ⟨t, by rw [List.filter_cons_of_neg (by simpa using hp), ht]⟩

theorem zipInsertArgs_kkfix (kw : List (String × Value)) (kkfix : List (String × Value)) :
    ∀ (pairs : List (Value × String)) (tl : List (String × Value)),
    (∀ p ∈ pairs, amem kw p.2 = false) →
    (∀ p ∈ pairs, p.2 ∉ kkfix.map (·.1)) →
    ∃ tl2, zipInsertArgs kw pairs (kkfix ++ tl) = .ok (kkfix ++ tl2) := by
  intro pairs
  induction pairs with
  | nil => intro tl _ _; exact ⟨tl, rfl⟩
  | cons p rest ih =>
      intro tl hc hfix
      obtain ⟨arg, name⟩ := p
      rw [zipInsertArgs, if_neg (by simp [hc (arg, name) (by simp)])]
      rw [ainsert_append_left kkfix tl name arg (hfix (arg, name) (by simp))]
      exact ih (ainsert tl name arg) (fun q hq => hc q (by simp [hq]))
        (fun q hq => hfix q (by simp [hq]))

/-- C3: on a schema with no variadic-keyword slot, a call carrying a keyword
entry whose name is not an argument name (and no positional overflow and no
duplicate binding) fails validation with the extra-field error naming that
entry; the entry is never silently dropped, and the wrapped callable is not
invoked: the wrapper returns the same error whatever the wrapped callable
is. -/
theorem c3_unknown_field_rejected
    (model : List (String × FieldDef)) (spec : ArgsSpec)
    (all_args : List Value) (all_kwargs : List (String × Value)) (zv : String × Value)
    (hfields : model.map (·.1) = spec.args_names)
    (hvkn : spec.var_kwargs_name = none)
    (hnoadd : additionalArgsOf spec all_args = [])
    (hnd : (all_kwargs.map (·.1)).Nodup)
    (hz : all_kwargs.find? (fun kv => !(spec.args_names.contains kv.1)) = some zv)
    (hnoc : ∀ p ∈ (knownArgsOf spec all_args).zip spec.args_names,
      amem all_kwargs p.2 = false) :
    parse_args model spec all_args all_kwargs
      = .error (.validation (.extraField zv.1))
    ∧ ∀ wrapped, wrapper model wrapped spec all_args all_kwargs
        = .error (.validation (.extraField zv.1)) := by
  have hnamesAny : ∀ k : String, (model.any (fun f => f.1 == k)) = true
      ↔ k ∈ spec.args_names := by
    intro k
    rw [List.any_eq_true]
    constructor
    · rintro ⟨f, hf, he⟩
      rw [← hfields]
      exact List.mem_map.mpr ⟨f, hf, by simpa using he⟩
    · intro hk
      rw [← hfields] at hk
      obtain ⟨f, hf, he⟩ := List.mem_map.mp hk
      exact ⟨f, hf, by simpa using he⟩
  have hznotmem : zv.1 ∉ spec.args_names := by
    have := List.find?_some hz
    simpa using this
  obtain ⟨t, hextras⟩ := find?_filter_head _ all_kwargs zv hz
  have hkk0 : ∀ kv ∈ all_kwargs.filter (fun kv => spec.args_names.contains kv.1),
      kv.1 ∈ spec.args_names := by
    intro kv hkv
    have := List.of_mem_filter hkv
    simpa using this
  have hmergemem : ∀ kv ∈ all_kwargs.filter (fun kv => spec.args_names.contains kv.1)
      ++ all_kwargs.filter (fun kv => !(spec.args_names.contains kv.1)),
      kv ∈ all_kwargs := by
    intro kv hkv
    rcases List.mem_append.mp hkv with h | h
    · exact List.mem_of_mem_filter h
    · exact List.mem_of_mem_filter h
  have hmerge : ∃ tl2, mergedKwargs spec all_args all_kwargs
      = .ok ((all_kwargs.filter (fun kv => spec.args_names.contains kv.1)
          ++ zv :: t) ++ tl2) := by
    unfold mergedKwargs
    rw [hnoadd, hvkn]
    dsimp only
    have hsplice : (all_kwargs.filter (fun kv => !(spec.args_names.contains kv.1))).foldl
        (fun d kv => ainsert d kv.1 kv.2)
        (all_kwargs.filter (fun kv => spec.args_names.contains kv.1))
        = all_kwargs.filter (fun kv => spec.args_names.contains kv.1)
          ++ all_kwargs.filter (fun kv => !(spec.args_names.contains kv.1)) := by
      apply foldl_ainsert_pairs
      · intro p hp hmem
        obtain ⟨q, hq, he⟩ := List.mem_map.mp hmem
        have h1 := List.of_mem_filter hp
        have h2 := hkk0 q hq
        rw [he] at h2
        simp at h1
        exact h1 h2
      · exact List.Nodup.sublist (List.Sublist.map _ (List.filter_sublist _)) hnd
    have hemp : (all_kwargs.filter (fun kv => !(spec.args_names.contains kv.1))).isEmpty
        = false := by
      rw [hextras]
      rfl
    rw [if_pos (show ([] : List Value).isEmpty = true from rfl),
      if_neg (by rw [hemp]; simp), hsplice]
    have hfix : ∀ p ∈ (knownArgsOf spec all_args).zip spec.args_names,
        p.2 ∉ (all_kwargs.filter (fun kv => spec.args_names.contains kv.1)
          ++ all_kwargs.filter (fun kv => !(spec.args_names.contains kv.1))).map (·.1) := by
      intro p hp hmem
      obtain ⟨q, hq, he⟩ := List.mem_map.mp hmem
      have hq2 : q ∈ all_kwargs := hmergemem q hq
      have : amem all_kwargs p.2 = true :=
        (amem_iff _ _).mpr (List.mem_map.mpr ⟨q, hq2, he⟩)
      rw [hnoc p hp] at this
      exact Bool.false_ne_true this
    obtain ⟨tl2, h3⟩ := zipInsertArgs_kkfix all_kwargs
      (all_kwargs.filter (fun kv => spec.args_names.contains kv.1)
        ++ all_kwargs.filter (fun kv => !(spec.args_names.contains kv.1)))
      ((knownArgsOf spec all_args).zip spec.args_names) [] hnoc hfix
    rw [List.append_nil] at h3
    refine ⟨tl2, ?_⟩
    rw [h3, hextras]
  obtain ⟨tl2, hmerge⟩ := hmerge
  have hfind : ((all_kwargs.filter (fun kv => spec.args_names.contains kv.1)
      ++ zv :: t) ++ tl2).find?
      (fun kv => !(model.any (fun f => f.1 == kv.1))) = some zv := by
    have h0 : (all_kwargs.filter (fun kv => spec.args_names.contains kv.1)).find?
        (fun kv => !(model.any (fun f => f.1 == kv.1))) = none := by
      rw [List.find?_eq_none]
      intro kv hkv
      simp only [Bool.not_eq_true', Bool.not_eq_false]
      exact (hnamesAny kv.1).mpr (hkk0 kv hkv)
    have h1 : (!(model.any (fun f => f.1 == zv.1))) = true := by
      simp only [Bool.not_eq_true']
      rw [Bool.eq_false_iff]
      intro hany
      exact hznotmem ((hnamesAny zv.1).mp hany)
    have h2 : List.find? (fun kv => !(model.any (fun f => f.1 == kv.1))) (zv :: t)
        = some zv := by
      simp only [List.find?]
      rw [h1]
    rw [List.find?_append, List.find?_append, h0, h2]
    rfl
  have hval : validate_model model ((all_kwargs.filter
      (fun kv => spec.args_names.contains kv.1) ++ zv :: t) ++ tl2)
      = .error (.extraField zv.1) := by
    unfold validate_model
    rw [hfind]
  constructor
  · unfold parse_args parse_args_with
    rw [hmerge]
    dsimp only
    rw [hval]
  · intro wrapped
    unfold wrapper wrapper_with parse_args_with
    rw [hmerge]
    dsimp only
    rw [hval]

/-- C3 witness: the test scenario `f(a: int)` called as `f(1, z=2)`. -/
theorem c3_unknown_field_rejected_witness :
    parse_args (posOnlySpec ["a"]).field_definitions (posOnlySpec ["a"])
      [.vInt 1] [("z", .vInt 2)] = .error (.validation (.extraField "z")) :=
  (c3_unknown_field_rejected (posOnlySpec ["a"]).field_definitions (posOnlySpec ["a"])
    [.vInt 1] [("z", .vInt 2)] ("z", .vInt 2)
    (by decide) rfl rfl (by decide) rfl (by decide)).1

/-- Signature analysis on an all-positional family (each parameter
positional-or-keyword, annotated `Any`, no default) computes `posOnlySpec`:
the boundary stays unbounded. -/
theorem got_it_spec_posOnly (fs : List String) (hnd : fs.Nodup) :
    got_it_get_args_spec (fs.map mkFixedParam) false false = .ok (posOnlySpec fs) := by
  unfold got_it_get_args_spec
  rw [specLoop_fixed]
  dsimp only [initState]
  rw [foldl_ainsert_names _ _ _ hnd (by simp)]
  simp only [List.nil_append]
  unfold posOnlySpec
  rw [keys_map_pair]

/-- The merge phase on the all-positional family with no keyword arguments:
only the first `fs.length` positional values reach the flat mapping. -/
theorem mergedKwargs_posOnly (fs : List String) (args2 : List Value)
    (hnd : fs.Nodup) (hlen : fs.length ≤ args2.length) :
    mergedKwargs (posOnlySpec fs) args2 []
      = .ok (fs.zip (args2.take fs.length)) := by
  have htk : (args2.take fs.length).length = fs.length := by
    rw [List.length_take]
    omega
  have hzip : args2.zip fs = (args2.take fs.length).zip fs :=
    zip_take_left fs args2 hlen
  have hsnd : ((args2.take fs.length).zip fs).map (·.2) = fs :=
    zip_map_snd_eq _ _ htk
  unfold mergedKwargs
  have hn : (posOnlySpec fs).args_names = fs := rfl
  have hpae : (posOnlySpec fs).positional_args_end = none := rfl
  simp only [hn, hpae, knownArgsOf, additionalArgsOf, List.filter_nil]
  rw [hzip]
  show zipInsertArgs [] ((args2.take fs.length).zip fs) []
    = Except.ok (fs.zip (args2.take fs.length))
  rw [zipInsertArgs_ok [] ((args2.take fs.length).zip fs)
    [] (by intro p _; rfl) (by rw [hsnd]; exact hnd) (by simp)]
  rw [List.nil_append, zip_swap_pair]

/-- The engine on the all-positional merged mapping is the identity up to
field order. -/
theorem validate_model_posOnly (fs : List String) (tk : List Value)
    (hnd : fs.Nodup) (hlen : fs.length = tk.length) :
    validate_model (posOnlySpec fs).field_definitions (fs.zip tk)
      = .ok (fs.zip tk) := by
  have hzfst : (fs.zip tk).map (·.1) = fs := zip_map_fst_eq fs tk hlen
  unfold validate_model
  rw [extras_none]
  · have hsplit : (posOnlySpec fs).field_definitions
        = (fs.zip tk).map (fun p => (p.1, FieldDef.typed .fAny .required)) := by
      show fs.map (fun n => (n, FieldDef.typed .fAny .required)) = _
      rw [zip_map_pairF _ fs tk hlen]
    rw [hsplit]
    apply processFields_anyFields
    intro p hp
    obtain ⟨a, b⟩ := p
    exact aget_of_mem_nodup _ _ _ (by rw [hzfst]; exact hnd) hp
  · intro kv hkv
    have h1 : kv.1 ∈ fs := mem_zip_fst fs tk kv hkv
    have hkeys : ((posOnlySpec fs).field_definitions).map (·.1) = fs := keys_map_pair _ fs
    rw [hkeys]
    exact h1

/-- The restoration phase on the all-positional validated mapping. -/
theorem restoreShape_posOnly (fs : List String) (tk : List Value)
    (hlen : fs.length = tk.length) :
    restoreShape (posOnlySpec fs) (fs.zip tk) = .ok ⟨tk, .vTuple [], [], .vDict []⟩ := by
  have hzfst : (fs.zip tk).map (·.1) = fs := zip_map_fst_eq fs tk hlen
  have hzsnd : (fs.zip tk).map (·.2) = tk := zip_map_snd_eq fs tk hlen
  have hpop : popMany fs (fs.zip tk) = .ok (tk, []) := by
    have h := popMany_exact (fs.zip tk) []
    rw [hzfst, hzsnd, List.append_nil] at h
    exact h
  unfold restoreShape
  have hpn : (match (posOnlySpec fs).positional_args_end with
      | none => (posOnlySpec fs).args_names
      | some k => (posOnlySpec fs).args_names.take k) = fs := rfl
  rw [hpn]
  dsimp only
  rw [hpop]
  rfl

/-- C10: when every declared parameter is positional-or-keyword (the
positional boundary is unbounded), surplus positional values are silently
discarded: the whole call behaves exactly as if only the first
`args_names.length` positional values had been supplied, for every engine
(first conjunct); and on the concrete all-`Any` family the call succeeds,
the engine sees only the declared names, and the wrapped callable is
invoked with exactly the declared validated values (second conjunct). -/
theorem c10_surplus_positional_discarded
    (engine : List (String × Value) → Except VErr (List (String × Value)))
    (spec : ArgsSpec) (all_args : List Value) (all_kwargs : List (String × Value))
    (hpae : spec.positional_args_end = none)
    (hlen : spec.args_names.length ≤ all_args.length) :
    parse_args_with engine spec all_args all_kwargs
      = parse_args_with engine spec (all_args.take spec.args_names.length) all_kwargs
    ∧ ∀ (fs : List String) (args2 : List Value), fs.Nodup → fs.length ≤ args2.length →
        got_it_get_args_spec (fs.map mkFixedParam) false false = .ok (posOnlySpec fs)
        ∧ parse_args (posOnlySpec fs).field_definitions (posOnlySpec fs) args2 []
            = .ok ⟨args2.take fs.length, .vTuple [], [], .vDict []⟩
        ∧ ∀ wrapped, wrapper (posOnlySpec fs).field_definitions wrapped
            (posOnlySpec fs) args2 [] = .ok (wrapped (args2.take fs.length) []) := by
  constructor
  · have hm : mergedKwargs spec all_args all_kwargs
        = mergedKwargs spec (all_args.take spec.args_names.length) all_kwargs := by
      unfold mergedKwargs
      simp only [knownArgsOf, additionalArgsOf, hpae]
      rw [zip_take_left spec.args_names all_args hlen]
    unfold parse_args_with
    rw [hm]
  · intro fs args2 hnd hlen2
    have htk : fs.length = (args2.take fs.length).length := by
      rw [List.length_take]
      omega
    have hparse : parse_args (posOnlySpec fs).field_definitions (posOnlySpec fs) args2 []
        = .ok ⟨args2.take fs.length, .vTuple [], [], .vDict []⟩ := by
      unfold parse_args parse_args_with
      rw [mergedKwargs_posOnly fs args2 hnd hlen2]
      dsimp only
      rw [validate_model_posOnly fs (args2.take fs.length) hnd htk]
      dsimp only
      exact restoreShape_posOnly fs (args2.take fs.length) htk
    refine ⟨got_it_spec_posOnly fs hnd, hparse, ?_⟩
    intro wrapped
    unfold wrapper wrapper_with
    have hparse2 : parse_args_with (validate_model (posOnlySpec fs).field_definitions)
        (posOnlySpec fs) args2 []
        = .ok ⟨args2.take fs.length, .vTuple [], [], .vDict []⟩ := hparse
    rw [hparse2]
    simp [tupleElems, dictElems]

/-- C10 witness: `f(a, b)` with all-`Any` parameters called with four
positional values succeeds, discarding the last two. -/
theorem c10_surplus_positional_discarded_witness :
    parse_args_with (validate_model (posOnlySpec ["a", "b"]).field_definitions)
      (posOnlySpec ["a", "b"]) [.vInt 1, .vInt 2, .vInt 3, .vInt 4] []
      = parse_args_with (validate_model (posOnlySpec ["a", "b"]).field_definitions)
        (posOnlySpec ["a", "b"])
        ([.vInt 1, .vInt 2, .vInt 3, .vInt 4].take (posOnlySpec ["a", "b"]).args_names.length) []
    ∧ parse_args (posOnlySpec ["a", "b"]).field_definitions (posOnlySpec ["a", "b"])
        [.vInt 1, .vInt 2, .vInt 3, .vInt 4] []
      = .ok ⟨[.vInt 1, .vInt 2, .vInt 3, .vInt 4].take ["a", "b"].length,
             .vTuple [], [], .vDict []⟩ := by
  have h := c10_surplus_positional_discarded
    (validate_model (posOnlySpec ["a", "b"]).field_definitions)
    (posOnlySpec ["a", "b"]) [.vInt 1, .vInt 2, .vInt 3, .vInt 4] [] rfl (by decide)
  exact ⟨h.1, (h.2 ["a", "b"] [.vInt 1, .vInt 2, .vInt 3, .vInt 4]
    (by decide) (by decide)).2.1⟩

/-- C4 (code bug): return checking never yields the coerced value. The
returns model built by `got_it.prepare_returns_model` stores the value under
the field `returns`, while `parse_result` feeds the raw return value to the
engine (which requires a mapping) and then looks up the reserved key
`__root__`: a plain return value is rejected as a non-mapping, and even a
mapping input carrying the `returns` field fails the final `__root__`
lookup; the reserved-key model consistent with `parse_result` is built only
by the unused `prepare_models` of parsing.py. -/
theorem c4_returns_model_mismatch :
    parse_result (prepare_returns_model .fInt) (.vInt 3) = .error .notAMapping
    ∧ parse_result (prepare_returns_model .fInt) (.vDict [("returns", .vInt 3)])
        = .error (.keyError "__root__")
    ∧ parse_result (root_returns_model .fInt) (.vDict [("__root__", .vInt 3)])
        = .ok (.vInt 3)
    ∧ aget (prepare_returns_model .fInt) "__root__" = none :=
  ⟨rfl, rfl, rfl, rfl⟩

/-- C5 counterexample: the unannotated parameter `a` with declared default
None is not accepted: with the ignore-untyped policy off the analysis raises
at wrap time, because the untyped check treats a None default as a missing
default (`default in (empty_, None)`). -/
theorem c5_counterexample :
    isErr (got_it_get_args_spec [⟨"a", none, some .vNone, .posOrKw⟩] false false) = true
    ∧ got_it_get_args_spec [⟨"a", none, some .vNone, .posOrKw⟩] true false
        = .ok ⟨[("a", .typed .fAny (.val .vNone))], ["a"], none, none, none⟩ :=
  ⟨rfl, rfl⟩

/-- C5 (amended): the missing-default sentinel is distinct from None at the
field level (an annotated parameter defaulting to None yields a field whose
default is the None value, not the required marker), but the untyped policy
treats a None default as absent: an unannotated fixed parameter defaulting
to None raises at wrap time when the ignore-untyped policy is off and the
parameter is not an allowed first-parameter marker, and is typed `Any` with
default None when the policy is on. -/
theorem c5_none_default_amended (i : Nat) (s : SpecState) (name : String) (t : FType)
    (hnm : ¬(i = 0 ∧ name ∈ IGNORE_IF_FIRST)) :
    isErr (specStep false false i s ⟨name, none, some .vNone, .posOrKw⟩) = true
    ∧ specStep false false i s ⟨name, some t, some .vNone, .posOrKw⟩
        = .ok { s with field_definitions := ainsert s.field_definitions name (.typed t (.val .vNone)) }
    ∧ specStep true false i s ⟨name, none, some .vNone, .posOrKw⟩
        = .ok { s with field_definitions := ainsert s.field_definitions name (.typed .fAny (.val .vNone)) } := by
  have harg : (i == 0 && IGNORE_IF_FIRST.contains name) = false := by
    by_cases hi : i = 0
    · subst hi
      have hn : name ∉ IGNORE_IF_FIRST := fun h => hnm ⟨rfl, h⟩
      simp [hn]
    · simp [hi]
  refine ⟨?_, rfl, rfl⟩
  unfold specStep
  dsimp only
  rw [harg]
  rfl

/-- C5 witness: a non-first unannotated parameter defaulting to None raises
with the policy off, and keeps its None default when annotated. -/
theorem c5_none_default_amended_witness :
    isErr (specStep false false 1 initState ⟨"a", none, some .vNone, .posOrKw⟩) = true
    ∧ specStep false false 1 initState ⟨"a", some .fInt, some .vNone, .posOrKw⟩
        = .ok { initState with field_definitions := ainsert initState.field_definitions "a" (.typed .fInt (.val .vNone)) } :=
  ⟨(c5_none_default_amended 1 initState "a" .fInt (by decide)).1,
   (c5_none_default_amended 1 initState "a" .fInt (by decide)).2.1⟩

/-- C6 counterexample: a callable whose only parameter is a variadic-keyword
catch-all has a non-empty field set (the catch-all becomes a field), so even
the emptiness-checking analysis of args.py wraps it without error, contrary
to the claim; and the decorator path performs no emptiness check at all: its
analysis accepts a callable with no parameters. -/
theorem c6_counterexample :
    args_get_args_spec [⟨"kwargs", none, none, .varKw⟩] false false
      = .ok ⟨[("kwargs", .typed .fDictStrAny (.val (.vDict [])))], ["kwargs"],
             none, some "kwargs", some 0⟩
    ∧ got_it_get_args_spec [] false false = .ok ⟨[], [], none, none, none⟩ :=
  ⟨rfl, rfl⟩

/-- C6 (amended): the module-level analysis of args.py rejects a callable
whose resulting field set is empty, which happens exactly for a callable
with no parameters; it is the decorator analysis followed by the
emptiness guard, raising exactly when the field definitions are empty. A
variadic-keyword-only callable yields one field and passes. -/
theorem c6_empty_fields_amended (ig st : Bool) :
    args_get_args_spec [] ig st
      = .error "Functions without arguments or with kwargs only are not supported"
    ∧ (∀ params spec, got_it_get_args_spec params ig st = .ok spec →
        args_get_args_spec params ig st
          = if spec.field_definitions.isEmpty then
              .error "Functions without arguments or with kwargs only are not supported"
            else .ok spec)
    ∧ isErr (args_get_args_spec [⟨"kwargs", none, none, .varKw⟩] ig st) = false := by
  refine ⟨rfl, ?_, ?_⟩
  · intro params spec h
    unfold args_get_args_spec
    rw [h]
  · cases ig <;> cases st <;> rfl

theorem specLoop_err (ig st : Bool) : ∀ (ps : List Param) (i0 : Nat) (s : SpecState)
    (k : Nat) (p : Param), ps.get? k = some p →
    (∀ s2, isErr (specStep ig st (i0 + k) s2 p) = true) →
    isErr (specLoop ig st i0 s ps) = true := by
  intro ps
  induction ps with
  | nil => intro i0 s k p h _; simp at h
  | cons q rest ih =>
      intro i0 s k p h hstep
      cases k with
      | zero =>
          have hqp : q = p := by simpa using h
          rw [specLoop]
          cases hq : specStep ig st i0 s q with
          | error e => rfl
          | ok s1 =>
              have h2 := hstep s
              simp only [Nat.add_zero] at h2
              rw [← hqp, hq] at h2
              simp [isErr] at h2
      | succ k2 =>
          rw [specLoop]
          cases hq : specStep ig st i0 s q with
          | error e => rfl
          | ok s1 =>
              apply ih (i0 + 1) s1 k2 p (by simpa using h)
              intro s2
              have h2 := hstep s2
              rw [show i0 + 1 + k2 = i0 + (k2 + 1) from by omega]
              exact h2

/-- C7: an unannotated fixed parameter with no default raises at wrap time
unless the ignore-untyped option is set, or the parameter sits at index zero
with one of the three recognized marker names (`mcs`, `cls`, `self`); in the
allowed cases its recorded field type is the unconstrained `Any`, required. -/
theorem c7_untyped_policy (params : List Param) (ig st : Bool) (i : Nat) (p : Param)
    (hget : params.get? i = some p)
    (hkind : p.kind = .posOrKw ∨ p.kind = .kwOnly)
    (hann : p.ann = none) (hdflt : p.dflt = none) :
    ((ig = false ∧ ¬(i = 0 ∧ p.name ∈ IGNORE_IF_FIRST)) →
      isErr (got_it_get_args_spec params ig st) = true)
    ∧ ((ig = true ∨ (i = 0 ∧ p.name ∈ IGNORE_IF_FIRST)) →
      ∀ s s2, specStep ig st i s p = .ok s2 →
        aget s2.field_definitions p.name = some (.typed .fAny .required)) := by
  constructor
  · rintro ⟨hig, hnm⟩
    subst hig
    have hstep : ∀ (j : Nat), ¬(j = 0 ∧ p.name ∈ IGNORE_IF_FIRST) →
        ∀ s2, isErr (specStep false st j s2 p) = true := by
      intro j hj s2
      have harg : (j == 0 && IGNORE_IF_FIRST.contains p.name) = false := by
        by_cases hjz : j = 0
        · subst hjz
          have hn : p.name ∉ IGNORE_IF_FIRST := fun h => hj ⟨rfl, h⟩
          simp [hn]
        · simp [hjz]
      rcases hkind with hk | hk <;>
        · unfold specStep
          rw [hk, hann, hdflt]
          dsimp only
          rw [harg]
          rfl
    have hloop : isErr (specLoop false st 0 initState params) = true := by
      apply specLoop_err false st params 0 initState i p hget
      apply hstep
      intro hc
      exact (fun h2 => absurd ⟨by omega, hc.2⟩ hnm) hc.1
    unfold got_it_get_args_spec
    cases hq : specLoop false st 0 initState params with
    | error e => rfl
    | ok s1 =>
        rw [hq] at hloop
        simp [isErr] at hloop
  · intro hallow s s2 hok
    have harg : (ig || (i == 0 && IGNORE_IF_FIRST.contains p.name)) = true := by
      rcases hallow with h | ⟨hi, hm⟩
      · simp [h]
      · subst hi
        have hc : IGNORE_IF_FIRST.contains p.name = true := by simpa using hm
        simp [hc, hm]
    rcases hkind with hk | hk <;>
      · unfold specStep at hok
        rw [hk, hann, hdflt] at hok
        dsimp only at hok
        rw [harg] at hok
        rw [show (isNoDefault none && true) = true from rfl] at hok
        rw [if_pos (show (true : Bool) = true from rfl)] at hok
        injection hok with h2
        rw [← h2]
        exact aget_ainsert_self _ _ _

/-- C7 witness: `f(a)` (no annotation, no default) is rejected at wrap time
with the policy off; a leading `self` parameter is allowed and typed `Any`
in the recorded field. -/
theorem c7_untyped_policy_witness :
    isErr (got_it_get_args_spec [⟨"a", none, none, .posOrKw⟩] false false) = true
    ∧ aget ((⟨[("self", .typed .fAny .required)], none, none, none⟩ : SpecState)).field_definitions
        "self" = some (.typed .fAny .required) :=
  ⟨(c7_untyped_policy [⟨"a", none, none, .posOrKw⟩] false false 0
      ⟨"a", none, none, .posOrKw⟩ rfl (Or.inl rfl) rfl rfl).1 ⟨rfl, by decide⟩,
   (c7_untyped_policy [⟨"self", none, none, .posOrKw⟩] false false 0
      ⟨"self", none, none, .posOrKw⟩ rfl (Or.inl rfl) rfl rfl).2
      (Or.inr ⟨rfl, by decide⟩) initState
      ⟨[("self", .typed .fAny .required)], none, none, none⟩ rfl⟩

theorem specStep_pae (ig st : Bool) (i : Nat) (s : SpecState) (p : Param)
    (s2 : SpecState) (h : specStep ig st i s p = .ok s2) :
    s2.positional_args_end
      = if p.kind == PKind.posOrKw then s.positional_args_end
        else fixBoundary s.positional_args_end i := by
  unfold specStep at h
  cases hk : p.kind <;> rw [hk] at h <;> dsimp only at h
  all_goals try (injection h with h2; rw [← h2]; rfl)
  all_goals (cases ha : p.ann <;> rw [ha] at h <;> dsimp only at h)
  all_goals try (injection h with h2; rw [← h2]; rfl)
  all_goals
    (by_cases hc1 : (isNoDefault p.dflt
        && (ig || i == 0 && IGNORE_IF_FIRST.contains p.name)) = true
     · rw [if_pos hc1] at h
       injection h with h2
       rw [← h2]
       rfl
     · rw [if_neg hc1] at h
       by_cases hc2 : isNoDefault p.dflt = true
       · rw [if_pos hc2] at h
         cases h
       · rw [if_neg hc2] at h
         injection h with h2
         rw [← h2]
         rfl)

theorem specLoop_pae (ig st : Bool) : ∀ (ps : List Param) (i : Nat) (s s2 : SpecState),
    specLoop ig st i s ps = .ok s2 →
    s2.positional_args_end
      = match s.positional_args_end with
        | some b => some b
        | none => (specBoundary ps).map (· + i) := by
  intro ps
  induction ps with
  | nil =>
      intro i s s2 h
      rw [specLoop] at h
      injection h with h2
      rw [← h2]
      cases s.positional_args_end <;> simp [specBoundary]
  | cons p rest ih =>
      intro i s s2 h
      rw [specLoop] at h
      cases hq : specStep ig st i s p with
      | error e => rw [hq] at h; cases h
      | ok s1 =>
          rw [hq] at h
          have h1 := ih (i + 1) s1 s2 h
          have h2 := specStep_pae ig st i s p s1 hq
          by_cases hk : p.kind = PKind.posOrKw
          · rw [specBoundary, if_pos (by simp [hk])]
            rw [h1, h2, if_pos (by simp [hk])]
            cases hpae : s.positional_args_end with
            | some b => rfl
            | none =>
                cases hb : specBoundary rest with
                | none => rfl
                | some b =>
                    show some (b + (i + 1)) = some (b + 1 + i)
                    congr 1
                    omega
          · rw [specBoundary, if_neg (by simp [hk])]
            rw [h1, h2, if_neg (by simp [hk])]
            cases hpae : s.positional_args_end with
            | some b => rfl
            | none =>
                show some i = some (0 + i)
                congr 1
                omega

/-- C8: whenever the analysis succeeds, the recorded positional boundary is
the declaration index of the first parameter that is keyword-only,
variadic-positional or variadic-keyword (the first occurrence wins and is
never overwritten), and null when every parameter is positional-or-keyword. -/
theorem c8_positional_boundary (params : List Param) (ig st : Bool) (spec : ArgsSpec)
    (h : got_it_get_args_spec params ig st = .ok spec) :
    spec.positional_args_end = specBoundary params := by
  unfold got_it_get_args_spec at h
  cases hq : specLoop ig st 0 initState params with
  | error e => rw [hq] at h; cases h
  | ok s =>
      rw [hq] at h
      injection h with h2
      have h3 := specLoop_pae ig st params 0 initState s hq
      rw [← h2]
      show s.positional_args_end = specBoundary params
      rw [h3]
      show (specBoundary params).map (· + 0) = specBoundary params
      cases specBoundary params with
      | none => rfl
      | some b =>
          show some (b + 0) = some b
          rfl

/-- C8 witness: `f(a: Any, *, k: int)` has its boundary at index 1, the
first keyword-only parameter. -/
theorem c8_positional_boundary_witness :
    (ArgsSpec.mk [("a", .typed .fAny .required), ("k", .typed .fInt .required)]
      ["a", "k"] none none (some 1)).positional_args_end
      = specBoundary [⟨"a", some .fAny, none, .posOrKw⟩, ⟨"k", some .fInt, none, .kwOnly⟩] :=
  c8_positional_boundary
    [⟨"a", some .fAny, none, .posOrKw⟩, ⟨"k", some .fInt, none, .kwOnly⟩] false false
    (ArgsSpec.mk [("a", .typed .fAny .required), ("k", .typed .fInt .required)]
      ["a", "k"] none none (some 1)) rfl

theorem visitAttrs_seen (incl : List String) : ∀ (attrs : List (String × Member))
    (seen events : List String) (a : String),
    a ∈ (visitAttrs incl attrs seen events).1 ↔ a ∈ seen ∨ a ∈ attrs.map (·.1) := by
  intro attrs
  induction attrs with
  | nil => intro seen events a; simp [visitAttrs]
  | cons hd rest ih =>
      intro seen events a
      obtain ⟨attr, obj⟩ := hd
      by_cases hs : seen.contains attr
      · rw [visitAttrs, if_pos hs]
        rw [ih]
        have hmem : attr ∈ seen := by simpa using hs
        simp only [List.map_cons, List.mem_cons]
        constructor
        · rintro (h | h)
          · exact Or.inl h
          · exact Or.inr (Or.inr h)
        · rintro (h | h | h)
          · exact Or.inl h
          · exact Or.inl (h ▸ hmem)
          · exact Or.inr h
      · rw [visitAttrs, if_neg hs]
        have hgen : ∀ ev2, a ∈ (visitAttrs incl rest (attr :: seen) ev2).1
            ↔ a ∈ seen ∨ a ∈ ((attr, obj) :: rest).map (·.1) := by
          intro ev2
          rw [ih]
          simp only [List.mem_cons, List.map_cons]
          tauto
        split
        · exact hgen events
        · split
          · exact hgen (events ++ [attr])
          · split
            · exact hgen (events ++ [attr])
            · exact hgen events

theorem visitAttrs_noop (incl : List String) : ∀ (attrs : List (String × Member))
    (seen events : List String),
    (∀ a ∈ attrs.map (·.1), a ∈ seen) →
    visitAttrs incl attrs seen events = (seen, events) := by
  intro attrs
  induction attrs with
  | nil => intro seen events _; rfl
  | cons hd rest ih =>
      intro seen events hall
      obtain ⟨attr, obj⟩ := hd
      have hs : seen.contains attr = true := by
        have := hall attr (by simp)
        simpa using this
      rw [visitAttrs, if_pos hs]
      exact ih seen events (fun a ha => hall a (by simp [ha]))

theorem visitClasses_seen (incl : List String) : ∀ (classes : List ClsDict)
    (seen events : List String) (a : String),
    a ∈ (visitClasses incl classes seen events).1
      ↔ a ∈ seen ∨ ∃ c ∈ classes, a ∈ c.attrs.map (·.1) := by
  intro classes
  induction classes with
  | nil => intro seen events a; simp [visitClasses]
  | cons c rest ih =>
      intro seen events a
      rw [visitClasses]
      rw [ih]
      rw [visitAttrs_seen]
      simp only [List.mem_cons]
      constructor
      · rintro ((h | h) | ⟨c2, hc2, h⟩)
        · exact Or.inl h
        · exact Or.inr ⟨c, Or.inl rfl, h⟩
        · exact Or.inr ⟨c2, Or.inr hc2, h⟩
      · rintro (h | ⟨c2, (hc2 | hc2), h⟩)
        · exact Or.inl (Or.inl h)
        · exact Or.inl (Or.inr (hc2 ▸ h))
        · exact Or.inr ⟨c2, hc2, h⟩

theorem visitClasses_noop (incl : List String) : ∀ (classes : List ClsDict)
    (seen events : List String),
    (∀ c ∈ classes, ∀ a ∈ c.attrs.map (·.1), a ∈ seen) →
    visitClasses incl classes seen events = (seen, events) := by
  intro classes
  induction classes with
  | nil => intro seen events _; rfl
  | cons c rest ih =>
      intro seen events hall
      rw [visitClasses]
      rw [visitAttrs_noop incl c.attrs seen events (hall c (by simp))]
      exact ih seen events (fun c2 hc2 => hall c2 (by simp [hc2]))

/-- C9 counterexample: the class with one plain method `m`, wrapped by two
separately parametrized traversals whose exclude sets are disjoint (the
empty set and the set containing only `x`): each traversal keeps its own
per-class seen set, so each wraps `m` — the same member name is wrapped a
second time, contrary to the claim. -/
theorem c9_counterexample :
    (all_methods_wrap [] [] [⟨[("m", ⟨false, false, true, false, false⟩)]⟩]).2 = ["m"]
    ∧ (all_methods_wrap [] ["x"] [⟨[("m", ⟨false, false, true, false, false⟩)]⟩]).2 = ["m"]
    ∧ ([] : List String).inter ["x"] = [] :=
  ⟨rfl, rfl, rfl⟩

/-- C9 (amended): during member traversal every member name is marked seen
regardless of outcome, so the final seen set is exactly the starting set
(the exclude copy) together with all traversed attribute names, and the
seen set only grows; reapplying the same parametrized traversal to the same
class wraps nothing the second time, because its per-class seen set
persists. Two independently parametrized traversals, however, keep separate
seen sets (see the counterexample). -/
theorem c9_seen_monotone_amended (incl excl : List String) (classes : List ClsDict) :
    (∀ a, a ∈ excl → a ∈ (all_methods_wrap incl excl classes).1)
    ∧ (∀ a, a ∈ (all_methods_wrap incl excl classes).1
        ↔ a ∈ excl ∨ ∃ c ∈ classes, a ∈ c.attrs.map (·.1))
    ∧ (all_methods_wrap incl (all_methods_wrap incl excl classes).1 classes).2 = [] := by
  refine ⟨?_, ?_, ?_⟩
  · intro a ha
    exact (visitClasses_seen incl classes excl [] a).mpr (Or.inl ha)
  · intro a
    exact visitClasses_seen incl classes excl [] a
  · unfold all_methods_wrap
    rw [visitClasses_noop]
    intro c hc a ha
    exact (visitClasses_seen incl classes excl [] a).mpr (Or.inr ⟨c, hc, ha⟩)

/-- C9 witness: for the one-method class, the exclude set is contained in
the final seen set and a second application of the same traversal wraps
nothing. -/
theorem c9_seen_monotone_amended_witness :
    "x" ∈ (all_methods_wrap [] ["x"] [⟨[("m", ⟨false, false, true, false, false⟩)]⟩]).1
    ∧ (all_methods_wrap []
        (all_methods_wrap [] ["x"] [⟨[("m", ⟨false, false, true, false, false⟩)]⟩]).1
        [⟨[("m", ⟨false, false, true, false, false⟩)]⟩]).2 = [] :=
  ⟨(c9_seen_monotone_amended [] ["x"] [⟨[("m", ⟨false, false, true, false, false⟩)]⟩]).1
      "x" (by decide),
   (c9_seen_monotone_amended [] ["x"] [⟨[("m", ⟨false, false, true, false, false⟩)]⟩]).2.2⟩

/-- C6 witness: the emptiness guard evaluated on a concrete analysis result:
no parameters raises, a variadic-keyword-only signature passes the guard. -/
theorem c6_empty_fields_amended_witness :
    args_get_args_spec [] false false
      = .error "Functions without arguments or with kwargs only are not supported"
    ∧ args_get_args_spec [⟨"kwargs", none, none, .varKw⟩] false false
      = if (ArgsSpec.mk [("kwargs", .typed .fDictStrAny (.val (.vDict [])))] ["kwargs"]
            none (some "kwargs") (some 0)).field_definitions.isEmpty then
          .error "Functions without arguments or with kwargs only are not supported"
        else
          .ok (ArgsSpec.mk [("kwargs", .typed .fDictStrAny (.val (.vDict [])))] ["kwargs"]
            none (some "kwargs") (some 0)) :=
  ⟨(c6_empty_fields_amended false false).1,
   (c6_empty_fields_amended false false).2.1 [⟨"kwargs", none, none, .varKw⟩]
     (ArgsSpec.mk [("kwargs", .typed .fDictStrAny (.val (.vDict [])))] ["kwargs"]
       none (some "kwargs") (some 0)) rfl⟩

end GotIt
